import Mathlib

/-!
Shallow embedding of the vector skip list of `src/vsl.hpp` (C++ namespace
`vsl`, class `VectorSkipList<T>` with its nested `SkipListNode<T>` and the
`Xoroshiro64StarStar` generator), together with proofs about the public
operations `operator[]` (read/write), `erase`, `has` and `getLevel`.

Representation of the pointer structure: the doubly linked multilevel list
is represented by the ordered list `nodes` of non-sentinel blocks, the
container height `level`, and the PRNG state `rng`.  The right-chain at
level `ℓ` of the C++ structure is the subsequence of `nodes` whose blocks
have `level ≥ ℓ`, with the head and tail sentinels at the two ends; the
sentinels carry no data and their own level always equals the container
level (`increaseLevel` raises both, the `decreaseLevel` walk lowers both),
so they are kept implicit.  The `width` field of the C++ class is
incremented exactly when a block is linked and decremented exactly when one
is unlinked, so it is represented by `nodes.length`.
-/

namespace VSL

/-- Modulus of all `uint64_t` arithmetic in the source. -/
def U64 : Nat := 18446744073709551616

/-- Constant `vsl::capacity_limit = sizeof(UintTypeBitMap) * 8 = 64` (vsl.hpp:18). -/
def capacity_limit : Nat := 64

/-- Constant `vsl::capacity_init = 4` (vsl.hpp:17). -/
def capacity_init : Nat := 4

/-- Step function of `Xoroshiro64StarStar::next` (vsl.hpp:47-55): from the
64-bit state, produce the new state and the output word. -/
def xnext (state : Nat) : Nat × Nat :=
  let s0 := state % U64
  let s1 := (s0 <<< 55) % U64
  let t := s0 ^^^ ((s0 <<< 23) % U64)
  let st := t ^^^ (t >>> 26) ^^^ (s1 >>> 9)
  let out := ((((s0 * 0x9E3779B97F4A7C15) % U64) >>> 32) * 0xBF58476D1CE4E5B9) % U64
  (st, out)

/-- Helper loop for `ctz64`: count trailing zero bits of `x`, with enough
fuel that 64 bits are always covered. -/
def ctzGo : Nat → Nat → Nat
  | 0, _ => 0
  | fuel + 1, x => if x % 2 = 1 then 0 else 1 + ctzGo fuel (x / 2)

/-- Count of trailing zero bits of a 64-bit word, 64 for input 0.  This is
`ctz64` as implemented in the repository's portable fallback (the unnamed
source file containing `VSL::ctz64`); `vsl.hpp` calls it as `bits::ctz64`. -/
def ctz64 (x : Nat) : Nat := ctzGo 64 (x % U64)

/-- Modelled from the spec: `bits.hpp` is not among the provided sources.
Section 3 of the spec fixes the bitmap semantics (bit `i` is set iff the
slot at offset `i` is occupied); `bits::get` tests bit `index`. -/
def bitsGet (m i : Nat) : Bool := m.testBit i

/-- Modelled from the spec: `bits::set_one` sets bit `index` of the bitmap
(spec section 4.1, `set(i, v)` sets bitmap bit `i`). -/
def bitsSetOne (m i : Nat) : Nat := m ||| (1 <<< i)

/-- Modelled from the spec: `bits::set_zero` clears bit `index` of the
bitmap (spec section 4.1, `erase(i)` clears bitmap bit `i`).  XOR with the
bit when it is set is extensionally the clear operation. -/
def bitsSetZero (m i : Nat) : Nat := m ^^^ (if m.testBit i then 1 <<< i else 0)

/-- Block node `SkipListNode<T>` (vsl.hpp:79-207).  `elements.length` is
`element_capacity`; `nodes`/`node_capacity` (the link arrays) are
represented by `level` together with the position of the block in the
container's block list, as described in the file header. -/
structure Node (α : Type) where
  base : Nat
  level : Nat
  bitMap : Nat
  elements : List α
deriving DecidableEq

variable {α : Type}

/-- Member `SkipListNode::isEmpty` (vsl.hpp:120-122). -/
def Node.isEmpty (n : Node α) : Bool := n.bitMap == 0

/-- Member `SkipListNode::hasElement` (vsl.hpp:129-131). -/
def Node.hasElement (n : Node α) (i : Nat) : Bool :=
  decide (i < n.elements.length) && bitsGet n.bitMap i

/-- Capacity-doubling loop of `SkipListNode::setElement` (vsl.hpp:154):
`while (index >= newCapacity) newCapacity <<= 1`.  The fuel bounds the
number of doublings; 64 is far more than the loop can ever take since the
index is below 64. -/
def capLoop : Nat → Nat → Nat → Nat
  | 0, _, cap => cap
  | fuel + 1, idx, cap => if idx < cap then cap else capLoop fuel idx (cap * 2)

/-- Member `SkipListNode::setElement` (vsl.hpp:148-163).  `pad` stands for
the unspecified contents of the slots freshly obtained from `realloc`;
those slots have their bitmap bit clear and the code never reads them
before writing them. -/
def Node.setElement (n : Node α) (i : Nat) (v pad : α) : Node α :=
  if capacity_limit ≤ i then n
  else
    let n1 :=
      if n.elements.length ≤ i then
        let newCap := capLoop 64 i
          (if n.elements.length = 0 then capacity_init else n.elements.length * 2)
        { n with elements := n.elements ++ List.replicate (newCap - n.elements.length) pad }
      else n
    { n1 with elements := n1.elements.set i v, bitMap := bitsSetOne n1.bitMap i }

/-- Member `SkipListNode::deleteElement` (vsl.hpp:169-172). -/
def Node.deleteElement (n : Node α) (i : Nat) : Node α :=
  if n.elements.length ≤ i then n else { n with bitMap := bitsSetZero n.bitMap i }

/-- Static member `SkipListNode::isIndexValid` (vsl.hpp:204-206). -/
def isIndexValid (d : Nat) : Bool := decide (d < capacity_limit)

/-- Container state of `VectorSkipList<T>` (vsl.hpp:209-218): PRNG state,
the ordered list of non-sentinel blocks, and the height `level`.  The C++
`level` is an `int64_t` that starts at 0, is incremented by
`increaseLevel`, and is decremented only under the guard `level >= 4`
(vsl.hpp:351-353), so it is never negative and is represented by `Nat`. -/
structure VState (α : Type) where
  rng : Nat
  nodes : List (Node α)
  level : Nat
deriving DecidableEq

/-- Inner movement of `findLeftNode` (vsl.hpp:289-298) at a fixed level
`ℓ`: repeatedly read the right-neighbour at level `ℓ` — the next block in
the list whose level is at least `ℓ`, or the tail sentinel if there is none
— and advance while it is not the tail and its base is at most `k`.
Positions are counted in blocks: position `0` is the head sentinel and
position `i + 1` is the block at list index `i`.  `p` is the committed
position, `scan` counts the blocks (of level `< ℓ`, invisible at this
level) already stepped over while looking for the chain successor. -/
def walkP (k ℓ : Nat) : Nat → Nat → List (Node α) → Nat
  | p, _, [] => p
  | p, scan, n :: rest =>
    if n.level < ℓ then walkP k ℓ p (scan + 1) rest
    else if n.base ≤ k then walkP k ℓ (p + scan + 1) 0 rest
    else p

/-- Level descent of `findLeftNode` (vsl.hpp:285-301): run the level-`ℓ`
walk, then drop one level, down to level 0. -/
def descendP (ns : List (Node α)) (k : Nat) : Nat → Nat → Nat
  | 0, p => walkP k 0 p 0 (ns.drop p)
  | ℓ + 1, p => descendP ns k ℓ (walkP k (ℓ + 1) p 0 (ns.drop p))

/-- Member `VectorSkipList::findLeftNode` (vsl.hpp:285-301), returning the
final position: `0` is the head sentinel, `i + 1` the block at index `i`. -/
def findLeftIdx (s : VState α) (k : Nat) : Nat := descendP s.nodes k s.level 0

/-- Covering test shared by `has`, `erase` and both `operator[]`
(vsl.hpp:406, 421, 442, 462): the found block is not the head sentinel, its
base is at most the key, and the offset is below `capacity_limit`. -/
def coveringAt (ns : List (Node α)) (p k : Nat) : Option (Nat × Node α) :=
  match p with
  | 0 => none
  | i + 1 =>
    match ns.get? i with
    | none => none
    | some n =>
      if n.base ≤ k ∧ isIndexValid (k - n.base) = true then some (i, n) else none

/-- Member `VectorSkipList::has` (vsl.hpp:401-410). -/
def hasOp (s : VState α) (k : Nat) : Bool :=
  if s.nodes.length = 0 then false
  else
    match coveringAt s.nodes (findLeftIdx s k) k with
    | some (_, n) => n.hasElement (k - n.base)
    | none => false

/-- Member `const T& VectorSkipList::operator[]` (vsl.hpp:460-471), the
read of a key: the stored value when the covering block has the slot set,
and the container's `invalid` value otherwise. -/
def getOp (inv : α) (s : VState α) (k : Nat) : α :=
  match coveringAt s.nodes (findLeftIdx s k) k with
  | some (_, n) =>
    if n.hasElement (k - n.base) then n.elements.getD (k - n.base) inv else inv
  | none => inv

/-- Member `VectorSkipList::getRandomLevel` (vsl.hpp:275-278): draw one
PRNG word, count its trailing zeros, and clamp by the current height. -/
def getRandomLevelC (s : VState α) : VState α × Nat :=
  let (st, r) := xnext s.rng
  let c := ctz64 r
  ({ s with rng := st }, if c ≤ s.level then c else s.level)

/-- Promotion walk of `VectorSkipList::increaseLevel` (vsl.hpp:236-250)
over the chain at the previous top level `oldL` (the blocks whose level is
at least `oldL`): each candidate consumes one PRNG word and is promoted
when the word is odd or when nothing has been promoted yet.  The initial
`while (node->level < this->level - 1)` skip loop of the source is vacuous
here because the represented chain contains exactly the blocks of
sufficient level. -/
def promoteWalk (oldL : Nat) : Nat → Bool → List (Node α) → Nat × List (Node α)
  | rng, _, [] => (rng, [])
  | rng, promoted, n :: rest =>
    if oldL ≤ n.level then
      let (rng1, r) := xnext rng
      let promote : Bool := (r % 2 == 1) || !promoted
      let n1 := if promote then { n with level := n.level + 1 } else n
      let (rng2, rest1) := promoteWalk oldL rng1 (promoted || promote) rest
      (rng2, n1 :: rest1)
    else
      let (rng2, rest1) := promoteWalk oldL rng promoted rest
      (rng2, n :: rest1)

/-- Member `VectorSkipList::increaseLevel` (vsl.hpp:221-255): raise the
sentinels (implicit) and the height, then probabilistically promote the
blocks of the previous top chain. -/
def increaseLevelC (s : VState α) : VState α :=
  let (rng1, nodes1) := promoteWalk s.level s.rng false s.nodes
  { rng := rng1, nodes := nodes1, level := s.level + 1 }

/-- Member `VectorSkipList::decreaseLevel` (vsl.hpp:258-269): walk the top
chain and lower every block on it (the sentinels implicitly included),
then lower the height. -/
def decreaseLevelC (s : VState α) : VState α :=
  { s with
    nodes := s.nodes.map (fun n => if s.level ≤ n.level then { n with level := n.level - 1 } else n),
    level := s.level - 1 }

/-- Member `VectorSkipList::removeNode` (vsl.hpp:337-354): unlink the block
at index `i`, then possibly lower the height under the hysteresis guard
with `minLevel = 4`. -/
def removeNodeAt (s : VState α) (i : Nat) : VState α :=
  let s1 := { s with nodes := s.nodes.eraseIdx i }
  if s1.level < 4 ∨ 2 ^ s1.level - 2 ^ 4 < s1.nodes.length then s1 else decreaseLevelC s1

/-- Member `VectorSkipList::insertNode` (vsl.hpp:307-335): draw the level,
allocate the block with `baseIndex = index` and store `value` at offset 0,
link it right after position `p` (the found left neighbour), and grow the
height when the new width exceeds `2 ^ level`. -/
def insertNodeOp (s : VState α) (p k : Nat) (v : α) : VState α :=
  let (s1, ℓ) := getRandomLevelC s
  let newNode := Node.setElement ⟨k, ℓ, 0, []⟩ 0 v v
  let s2 := { s1 with nodes := s1.nodes.insertIdx p newNode }
  if 2 ^ s2.level < s2.nodes.length then increaseLevelC s2 else s2

/-- Slot materialisation of `T& operator[]` on a covering block
(vsl.hpp:444-446): if the slot is absent, store `invalid` into it. -/
def touchNode (n : Node α) (off : Nat) (inv : α) : Node α :=
  if n.hasElement off then n else n.setElement off inv inv

/-- Effect on the covering block of `list[k] = v`: materialise the slot,
then write `v` through the returned reference (vsl.hpp:448). -/
def writeNode (n : Node α) (off : Nat) (v inv : α) : Node α :=
  let n1 := touchNode n off inv
  { n1 with elements := n1.elements.set off v }

/-- Member `T& VectorSkipList::operator[]` (vsl.hpp:439-453) followed by an
assignment `= v` through the returned reference: when a covering block
exists, materialise the slot with `invalid` if absent and then write `v`
into it; otherwise splice in a fresh block holding `invalid` at offset 0
and write `v` there. -/
def writeOp (inv : α) (s : VState α) (k : Nat) (v : α) : VState α :=
  let p := findLeftIdx s k
  match coveringAt s.nodes p k with
  | some (i, n) =>
    { s with nodes := s.nodes.set i (writeNode n (k - n.base) v inv) }
  | none =>
    let s1 := insertNodeOp s p k inv
    { s1 with
      nodes := s1.nodes.modify (fun n => { n with elements := n.elements.set 0 v }) p }

/-- Member `T& VectorSkipList::operator[]` (vsl.hpp:439-453) evaluated
without an assignment: the state change it performs and the value read
through the returned reference. -/
def touchOp (inv : α) (s : VState α) (k : Nat) : VState α × α :=
  let p := findLeftIdx s k
  match coveringAt s.nodes p k with
  | some (i, n) =>
    let n1 := touchNode n (k - n.base) inv
    ({ s with nodes := s.nodes.set i n1 }, n1.elements.getD (k - n.base) inv)
  | none =>
    let s1 := insertNodeOp s p k inv
    (s1, match s1.nodes.get? p with
         | some n => n.elements.getD 0 inv
         | none => inv)

/-- Member `VectorSkipList::erase` (vsl.hpp:416-432). -/
def eraseOp (s : VState α) (k : Nat) : VState α × Bool :=
  if s.nodes.length = 0 then (s, false)
  else
    let p := findLeftIdx s k
    match coveringAt s.nodes p k with
    | none => (s, false)
    | some (i, n) =>
      let off := k - n.base
      if n.hasElement off then
        let n1 := n.deleteElement off
        if n1.isEmpty then (removeNodeAt { s with nodes := s.nodes.set i n1 } i, true)
        else ({ s with nodes := s.nodes.set i n1 }, true)
      else (s, false)

/-- Operations a client can perform that mutate the container: an indexed
write `list[k] = v`, a bare indexed access `list[k]` (which materialises
storage), and `erase(k)`. -/
inductive MOp (α : Type) where
  | write (k : Nat) (v : α)
  | touch (k : Nat)
  | erase (k : Nat)
deriving DecidableEq

/-- State transition of one mutating operation. -/
def applyM (inv : α) (s : VState α) : MOp α → VState α
  | .write k v => writeOp inv s k v
  | .touch k => (touchOp inv s k).1
  | .erase k => (eraseOp s k).1

/-- Constructor `VectorSkipList(const T& invalid, uint64_t seed)`
(vsl.hpp:372-379): empty list, height 0, PRNG seeded. -/
def initState (seed : Nat) : VState α := { rng := seed % U64, nodes := [], level := 0 }

/-- Run a sequence of mutating operations from a fresh container. -/
def runM (inv : α) (seed : Nat) (ops : List (MOp α)) : VState α :=
  ops.foldl (applyM inv) (initState seed)

/-- States that a container constructed with `invalid = inv` can reach. -/
def Reachable (inv : α) (s : VState α) : Prop :=
  ∃ seed ops, runM inv seed ops = s

end VSL

namespace VSL

variable {α : Type}

/-! ### Bitmap lemmas -/

theorem bitsGet_setOne (m i j : Nat) :
    bitsGet (bitsSetOne m i) j = (bitsGet m j || decide (j = i)) := by
  unfold bitsGet bitsSetOne
  rw [Nat.shiftLeft_eq, one_mul, Nat.testBit_lor]
  rcases eq_or_ne j i with h | h
  · subst h; simp [Nat.testBit_two_pow_self]
  · simp [Nat.testBit_two_pow_of_ne (Ne.symm h), h]

theorem bitsGet_setZero (m i j : Nat) :
    bitsGet (bitsSetZero m i) j = (bitsGet m j && !(decide (j = i))) := by
  unfold bitsGet bitsSetZero
  by_cases hm : m.testBit i
  · rw [if_pos hm, Nat.shiftLeft_eq, one_mul, Nat.testBit_xor]
    rcases eq_or_ne j i with h | h
    · subst h; simp [Nat.testBit_two_pow_self, hm]
    · simp [Nat.testBit_two_pow_of_ne (Ne.symm h), h]
  · rw [if_neg hm]
    rcases eq_or_ne j i with h | h
    · subst h; simp [hm]
    · simp [h]

theorem testBit_setOne (m i j : Nat) :
    (bitsSetOne m i).testBit j = (m.testBit j || decide (j = i)) := bitsGet_setOne m i j

theorem testBit_setZero (m i j : Nat) :
    (bitsSetZero m i).testBit j = (m.testBit j && !(decide (j = i))) := bitsGet_setZero m i j

theorem bitMap_eq_zero_iff (m : Nat) : m = 0 ↔ ∀ i, m.testBit i = false := by
  constructor
  · rintro rfl i; exact Nat.zero_testBit i
  · intro h; exact Nat.eq_of_testBit_eq fun i => by rw [h i, Nat.zero_testBit]

/-! ### Capacity lemmas -/

/-- New capacity chosen by `setElement` when the index is past the current
capacity. -/
def capNext (len i : Nat) : Nat :=
  capLoop 64 i (if len = 0 then capacity_init else len * 2)

/-- Capacities attainable by a block's element buffer. -/
def capSet : List Nat := [0, 4, 8, 16, 32, 64]

theorem capNext_facts :
    ∀ len ∈ capSet, ∀ i, i < 64 → len ≤ i →
      (len ≤ capNext len i ∧ i < capNext len i ∧ capNext len i ∈ [4, 8, 16, 32, 64]) := by
  decide

theorem capLoop_le (fuel idx cap : Nat) : cap ≤ capLoop fuel idx cap := by
  induction fuel generalizing cap with
  | zero => exact Nat.le_refl _
  | succ f ih =>
    unfold capLoop
    by_cases h : idx < cap
    · rw [if_pos h]
    · rw [if_neg h]
      calc cap ≤ cap * 2 := by omega
        _ ≤ capLoop f idx (cap * 2) := ih _

theorem capNext_le (len i : Nat) : len ≤ capNext len i := by
  unfold capNext
  by_cases h0 : len = 0
  · subst h0; exact Nat.zero_le _
  · rw [if_neg h0]
    calc len ≤ len * 2 := by omega
      _ ≤ _ := capLoop_le _ _ _

/-! ### Facts about `Node.setElement` -/

theorem setElement_base (n : Node α) (i : Nat) (v pad : α) :
    (n.setElement i v pad).base = n.base := by
  unfold Node.setElement
  by_cases h : capacity_limit ≤ i
  · rw [if_pos h]
  · rw [if_neg h]; by_cases h2 : n.elements.length ≤ i <;> simp [h2]

theorem setElement_level (n : Node α) (i : Nat) (v pad : α) :
    (n.setElement i v pad).level = n.level := by
  unfold Node.setElement
  by_cases h : capacity_limit ≤ i
  · rw [if_pos h]
  · rw [if_neg h]; by_cases h2 : n.elements.length ≤ i <;> simp [h2]

theorem setElement_bitMap (n : Node α) (i : Nat) (v pad : α) (hi : i < capacity_limit) :
    (n.setElement i v pad).bitMap = bitsSetOne n.bitMap i := by
  unfold Node.setElement
  rw [if_neg (by omega)]
  by_cases h2 : n.elements.length ≤ i <;> simp [h2]

theorem setElement_length (n : Node α) (i : Nat) (v pad : α) (hi : i < capacity_limit) :
    (n.setElement i v pad).elements.length =
      if n.elements.length ≤ i then capNext n.elements.length i else n.elements.length := by
  unfold Node.setElement
  rw [if_neg (by omega)]
  by_cases h2 : n.elements.length ≤ i
  · simp only [if_pos h2, List.length_set, List.length_append, List.length_replicate]
    have := capNext_le n.elements.length i
    unfold capNext at this ⊢
    omega
  · simp [h2]

end VSL

namespace VSL

variable {α : Type}

theorem capLoop_gt (fuel idx cap : Nat) (hc : 0 < cap) (hb : idx < 2 ^ fuel * cap) :
    idx < capLoop fuel idx cap := by
  induction fuel generalizing cap with
  | zero => simpa using hb
  | succ f ih =>
    unfold capLoop
    by_cases h : idx < cap
    · rwa [if_pos h]
    · rw [if_neg h]
      refine ih (cap * 2) (by omega) ?_
      rw [pow_succ] at hb
      have h2 : 2 ^ f * (cap * 2) = 2 ^ f * 2 * cap := by ring
      omega

theorem capNext_gt (len i : Nat) (hi : i < 64) : i < capNext len i := by
  unfold capNext
  apply capLoop_gt
  · by_cases h0 : len = 0
    · simp [h0, capacity_init]
    · rw [if_neg h0]; omega
  · calc i < 64 := hi
      _ ≤ 2 ^ 64 := by norm_num
      _ ≤ 2 ^ 64 * (if len = 0 then capacity_init else len * 2) := by
          by_cases h0 : len = 0
          · simp [h0, capacity_init]
          · rw [if_neg h0]; nlinarith [Nat.one_le_iff_ne_zero.mpr h0]

theorem setElement_lt_length (n : Node α) (i : Nat) (v pad : α) (hi : i < capacity_limit) :
    i < (n.setElement i v pad).elements.length := by
  rw [setElement_length n i v pad hi]
  by_cases h2 : n.elements.length ≤ i
  · rw [if_pos h2]; exact capNext_gt _ _ hi
  · rw [if_neg h2]; omega

theorem get?_set_self {β : Type} (l : List β) (i : Nat) (v : β) (h : i < l.length) :
    (l.set i v).get? i = some v := by
  rw [List.get?_set_eq, List.get?_eq_get h]
  rfl

theorem setElement_get_self (n : Node α) (i : Nat) (v pad : α) (hi : i < capacity_limit) :
    (n.setElement i v pad).elements.get? i = some v := by
  have hlen := setElement_lt_length n i v pad hi
  unfold Node.setElement at hlen ⊢
  rw [if_neg (by omega)] at hlen ⊢
  by_cases h2 : n.elements.length ≤ i
  · simp only [if_pos h2] at hlen ⊢
    simp only [List.length_set] at hlen
    exact get?_set_self _ _ _ hlen
  · simp only [if_neg h2] at hlen ⊢
    simp only [List.length_set] at hlen
    exact get?_set_self _ _ _ hlen

theorem setElement_get_ne (n : Node α) (i j : Nat) (v pad : α) (hi : i < capacity_limit)
    (hne : j ≠ i) (hj : j < n.elements.length) :
    (n.setElement i v pad).elements.get? j = n.elements.get? j := by
  unfold Node.setElement
  rw [if_neg (by omega)]
  by_cases h2 : n.elements.length ≤ i
  · simp only [if_pos h2]
    rw [List.get?_set_ne _ _ (fun h => hne h.symm), List.get?_append hj]
  · simp only [if_neg h2]
    rw [List.get?_set_ne _ _ (fun h => hne h.symm)]

end VSL

namespace VSL

variable {α : Type}

/-! ### Invariants of reachable container states -/

/-- Link invariant 1 of the spec: blocks appear in strictly increasing base
order. -/
def Sorted (ns : List (Node α)) : Prop := ns.Pairwise (fun a b => a.base < b.base)

/-- Occupied offsets of a block never reach the base of the next block:
keys are written into the rightmost block whose base is at most the key, so
a block acquires a bit only while no later block shadows that key. -/
def NoShadow (ns : List (Node α)) : Prop :=
  ns.Chain' (fun a b => ∀ i, a.bitMap.testBit i → a.base + i < b.base)

/-- Per-block well-formedness: set bits lie below the element capacity, the
capacity is one of the attainable values, and the block is non-empty. -/
def NodeOK (n : Node α) : Prop :=
  (∀ i, n.bitMap.testBit i → i < n.elements.length) ∧
  n.elements.length ∈ capSet ∧ n.bitMap ≠ 0

/-- Full invariant of reachable states. -/
def Inv (s : VState α) : Prop :=
  Sorted s.nodes ∧ NoShadow s.nodes ∧ ∀ n ∈ s.nodes, NodeOK n

theorem nodeOK_len_le (n : Node α) (h : NodeOK n) : n.elements.length ≤ 64 := by
  rcases h with ⟨-, hmem, -⟩
  simp only [capSet, List.mem_cons, List.not_mem_nil, or_false] at hmem
  omega

theorem nodeOK_bit_lt (n : Node α) (h : NodeOK n) (i : Nat) (hb : n.bitMap.testBit i) :
    i < 64 :=
  lt_of_lt_of_le (h.1 i hb) (nodeOK_len_le n h)

/-! ### The reference view: the rightmost block whose base is at most `k` -/

/-- Last block in list order whose base is at most `k` (for a sorted list,
the block with the greatest such base). -/
def absFind : List (Node α) → Nat → Option (Node α)
  | [], _ => none
  | n :: rest, k =>
    match absFind rest k with
    | some m => some m
    | none => if n.base ≤ k then some n else none

/-- Value stored for key `k`: the verdict of the rightmost block whose base
is at most `k`, consulting its bitmap exactly as `has`/`operator[]` do. -/
def absLookup (inv : α) (ns : List (Node α)) (k : Nat) : Option α :=
  match absFind ns k with
  | none => none
  | some n =>
    if k - n.base < capacity_limit ∧ n.hasElement (k - n.base) = true
    then some (n.elements.getD (k - n.base) inv) else none

theorem absFind_cons (n : Node α) (l : List (Node α)) (k : Nat) :
    absFind (n :: l) k =
      match absFind l k with
      | some m => some m
      | none => if n.base ≤ k then some n else none := rfl

theorem absFind_append (A B : List (Node α)) (k : Nat) :
    absFind (A ++ B) k =
      match absFind B k with
      | some m => some m
      | none => absFind A k := by
  induction A with
  | nil =>
    simp only [List.nil_append]
    cases h : absFind B k <;> simp [h, absFind]
  | cons a A ih =>
    rw [List.cons_append, absFind_cons, ih, absFind_cons]
    cases h1 : absFind B k <;> cases h2 : absFind A k <;> simp [h1, h2]

theorem absFind_none (B : List (Node α)) (k : Nat) (h : ∀ b ∈ B, k < b.base) :
    absFind B k = none := by
  induction B with
  | nil => rfl
  | cons b B ih =>
    simp only [absFind, ih (fun x hx => h x (List.mem_cons_of_mem b hx))]
    rw [if_neg (by have := h b (List.mem_cons_self b B); omega)]

theorem absFind_all_le (A : List (Node α)) (k : Nat) (h : ∀ a ∈ A, a.base ≤ k) :
    absFind A k = A.getLast? := by
  induction A with
  | nil => rfl
  | cons a A ih =>
    rw [absFind_cons, ih (fun x hx => h x (List.mem_cons_of_mem a hx))]
    cases hA : A with
    | nil => simp [h a (List.mem_cons_self a A)]
    | cons b B =>
      rw [List.getLast?_cons_cons]
      have hsome : ((b :: B).getLast?).isSome := by
        rw [List.getLast?_isSome]
        exact List.cons_ne_nil b B
      obtain ⟨x, hx⟩ := Option.isSome_iff_exists.mp hsome
      rw [hx]

end VSL

namespace VSL

variable {α : Type}

/-- Position (head = 0, block at index `i` = `i + 1`) of the rightmost
block whose base is at most `k`, for a sorted block list. -/
def lastPos (ns : List (Node α)) (k : Nat) : Nat :=
  (ns.takeWhile (fun n => decide (n.base ≤ k))).length

theorem lastPos_le_length (ns : List (Node α)) (k : Nat) : lastPos ns k ≤ ns.length :=
  (List.takeWhile_prefix _).sublist.length_le

theorem lastPos_cons (m : Node α) (rest : List (Node α)) (k : Nat) :
    lastPos (m :: rest) k = if m.base ≤ k then lastPos rest k + 1 else 0 := by
  unfold lastPos
  rw [List.takeWhile_cons]
  by_cases h : m.base ≤ k
  · simp [h]
  · simp [h]

theorem sorted_char (ns : List (Node α)) (k : Nat) (hs : Sorted ns) :
    ∀ i n, ns.get? i = some n → (n.base ≤ k ↔ i < lastPos ns k) := by
  induction ns with
  | nil => intro i n h; simp at h
  | cons m rest ih =>
    rw [Sorted, List.pairwise_cons] at hs
    intro i n h
    rw [lastPos_cons]
    match i with
    | 0 =>
      simp only [List.get?] at h
      injection h with h
      subst h
      by_cases hm : m.base ≤ k
      · simp [hm]
      · simp [hm]
    | i + 1 =>
      simp only [List.get?] at h
      by_cases hm : m.base ≤ k
      · rw [if_pos hm]
        rw [ih hs.2 i n h]
        omega
      · rw [if_neg hm]
        have hmem := List.get?_mem h
        have hlt : m.base < n.base := hs.1 n hmem
        constructor
        · intro hh; omega
        · intro hh; omega

theorem drop_cons_succ (ns : List (Node α)) (m : Nat) (n : Node α) (t : List (Node α))
    (h : ns.drop m = n :: t) : ns.drop (m + 1) = t := by
  have h2 : ns.drop (m + 1) = (ns.drop m).drop 1 := by
    rw [List.drop_drop]
  rw [h2, h]
  rfl

theorem drop_head_get? (ns : List (Node α)) (m : Nat) (n : Node α) (t : List (Node α))
    (h : ns.drop m = n :: t) : ns.get? m = some n := by
  have h2 := List.get?_drop ns m 0
  rw [h] at h2
  simpa using h2.symm

theorem walkP_bounds (ns : List (Node α)) (k : Nat) (hs : Sorted ns) (ℓ : Nat) :
    ∀ rest p scan, rest = ns.drop (p + scan) → p ≤ lastPos ns k →
      p ≤ walkP k ℓ p scan rest ∧ walkP k ℓ p scan rest ≤ lastPos ns k := by
  intro rest
  induction rest with
  | nil => intro p scan _ hp; exact ⟨Nat.le_refl _, hp⟩
  | cons n rest ih =>
    intro p scan hdrop hp
    unfold walkP
    by_cases h1 : n.level < ℓ
    · rw [if_pos h1]
      exact ih p (scan + 1) (drop_cons_succ ns (p + scan) n rest hdrop.symm).symm hp
    · rw [if_neg h1]
      by_cases h2 : n.base ≤ k
      · rw [if_pos h2]
        have hget := drop_head_get? ns (p + scan) n rest hdrop.symm
        have hlt : p + scan < lastPos ns k := (sorted_char ns k hs _ n hget).mp h2
        have hrest : rest = ns.drop (p + scan + 1 + 0) := by
          rw [Nat.add_zero]
          exact (drop_cons_succ ns (p + scan) n rest hdrop.symm).symm
        have hih := ih (p + scan + 1) 0 hrest (by omega)
        exact ⟨by omega, hih.2⟩
      · rw [if_neg h2]
        exact ⟨Nat.le_refl _, hp⟩

theorem walkP_zero_exact (ns : List (Node α)) (k : Nat) (hs : Sorted ns) :
    ∀ rest p, rest = ns.drop p → p ≤ lastPos ns k →
      walkP k 0 p 0 rest = lastPos ns k := by
  intro rest
  induction rest with
  | nil =>
    intro p hdrop hp
    have h1 : ns.length ≤ p := by
      rw [← List.drop_eq_nil_iff_le, ← hdrop]
    have h2 := lastPos_le_length ns k
    unfold walkP
    omega
  | cons n rest ih =>
    intro p hdrop hp
    unfold walkP
    rw [if_neg (by omega)]
    have hget := drop_head_get? ns p n rest hdrop.symm
    by_cases h2 : n.base ≤ k
    · rw [if_pos h2]
      have hlt : p < lastPos ns k := (sorted_char ns k hs _ n hget).mp h2
      have hrest : rest = ns.drop (p + 0 + 1) := by
        rw [Nat.add_zero]
        exact (drop_cons_succ ns p n rest hdrop.symm).symm
      rw [Nat.add_zero] at hrest
      exact ih (p + 1) hrest (by omega)
    · rw [if_neg h2]
      have hnot : ¬ p < lastPos ns k := fun hc => h2 ((sorted_char ns k hs _ n hget).mpr hc)
      omega

theorem descendP_exact (ns : List (Node α)) (k : Nat) (hs : Sorted ns) :
    ∀ ℓ p, p ≤ lastPos ns k → descendP ns k ℓ p = lastPos ns k := by
  intro ℓ
  induction ℓ with
  | zero =>
    intro p hp
    exact walkP_zero_exact ns k hs _ p rfl hp
  | succ ℓ ih =>
    intro p hp
    unfold descendP
    exact ih _ (walkP_bounds ns k hs (ℓ + 1) _ p 0 (by rw [Nat.add_zero]) hp).2

/-- Routing lemma: under the sortedness invariant, `findLeftNode` lands on
the rightmost block whose base is at most the key (position form). -/
theorem findLeftIdx_eq_lastPos (s : VState α) (k : Nat) (hs : Sorted s.nodes) :
    findLeftIdx s k = lastPos s.nodes k :=
  descendP_exact s.nodes k hs s.level 0 (Nat.zero_le _)

end VSL

namespace VSL

variable {α : Type}

/-! ### Decomposition of a sorted block list at a key -/

/-- Prefix of blocks with base at most `k`. -/
def lowPart (ns : List (Node α)) (k : Nat) : List (Node α) :=
  ns.takeWhile (fun n => decide (n.base ≤ k))

/-- Suffix of blocks with base beyond `k`. -/
def highPart (ns : List (Node α)) (k : Nat) : List (Node α) :=
  ns.dropWhile (fun n => decide (n.base ≤ k))

theorem low_append_high (ns : List (Node α)) (k : Nat) :
    lowPart ns k ++ highPart ns k = ns :=
  List.takeWhile_append_dropWhile _ _

theorem lastPos_eq_low_length (ns : List (Node α)) (k : Nat) :
    lastPos ns k = (lowPart ns k).length := rfl

theorem lowPart_le (ns : List (Node α)) (k : Nat) :
    ∀ a ∈ lowPart ns k, a.base ≤ k := by
  intro a ha
  simpa using List.mem_takeWhile_imp ha

theorem highPart_gt (ns : List (Node α)) (k : Nat) (hs : Sorted ns) :
    ∀ b ∈ highPart ns k, k < b.base := by
  induction ns with
  | nil => intro b hb; simp [highPart] at hb
  | cons m rest ih =>
    rw [Sorted, List.pairwise_cons] at hs
    intro b hb
    unfold highPart at hb
    rw [List.dropWhile_cons] at hb
    by_cases hm : m.base ≤ k
    · rw [if_pos (by simpa using hm)] at hb
      exact ih hs.2 b hb
    · rw [if_neg (by simpa using hm)] at hb
      rcases List.mem_cons.mp hb with rfl | hb
      · omega
      · have := hs.1 b hb; omega

/-! ### Surgery on lists at a known position -/

theorem set_at_prefix_len (A : List (Node α)) (a x : Node α) (B : List (Node α)) :
    (A ++ a :: B).set A.length x = A ++ x :: B := by
  induction A with
  | nil => rfl
  | cons y A ih => simpa using ih

theorem insertIdx_at_prefix_len (A : List (Node α)) (x : Node α) (B : List (Node α)) :
    (A ++ B).insertIdx A.length x = A ++ x :: B := by
  induction A with
  | nil => rfl
  | cons y A ih =>
    simp only [List.length_cons, List.cons_append, List.insertIdx_succ_cons, ih]

theorem modify_at_prefix_len (A : List (Node α)) (a : Node α) (B : List (Node α))
    (f : Node α → Node α) :
    (A ++ a :: B).modify f A.length = A ++ f a :: B := by
  induction A with
  | nil => rfl
  | cons y A ih => simpa [List.modify] using ih

theorem eraseIdx_at_prefix_len (A : List (Node α)) (a : Node α) (B : List (Node α)) :
    (A ++ a :: B).eraseIdx A.length = A ++ B := by
  induction A with
  | nil => rfl
  | cons y A ih => simpa using ih

theorem get?_at_prefix_len (A : List (Node α)) (a : Node α) (B : List (Node α)) :
    (A ++ a :: B).get? A.length = some a := by
  induction A with
  | nil => rfl
  | cons y A ih => simpa using ih

end VSL

namespace VSL

variable {α : Type}

/-! ### Level changes do not affect data

`increaseLevel` and `decreaseLevel` only rewire links and adjust levels;
the bases, bitmaps and element buffers of all blocks are untouched. -/

/-- Two blocks that agree on everything except possibly the level. -/
def EqData (m n : Node α) : Prop :=
  m.base = n.base ∧ m.bitMap = n.bitMap ∧ m.elements = n.elements

theorem eqData_refl (n : Node α) : EqData n n := ⟨rfl, rfl, rfl⟩

theorem promoteWalk_data (oldL : Nat) :
    ∀ (ns : List (Node α)) (rng : Nat) (b : Bool),
      List.Forall₂ EqData ns (promoteWalk oldL rng b ns).2 := by
  intro ns
  induction ns with
  | nil => intro rng b; exact List.Forall₂.nil
  | cons n rest ih =>
    intro rng b
    unfold promoteWalk
    by_cases h : oldL ≤ n.level
    · rw [if_pos h]
      refine List.Forall₂.cons ?_ ?_
      · by_cases hp : ((xnext rng).2 % 2 == 1) || !b <;> simp [hp, EqData]
      · exact ih _ _
    · rw [if_neg h]
      exact List.Forall₂.cons (eqData_refl n) (ih _ _)

theorem map_level_data (f : Node α → Node α)
    (hf : ∀ n, (f n).base = n.base ∧ (f n).bitMap = n.bitMap ∧ (f n).elements = n.elements)
    (ns : List (Node α)) : List.Forall₂ EqData ns (ns.map f) := by
  induction ns with
  | nil => exact List.Forall₂.nil
  | cons n rest ih =>
    exact List.Forall₂.cons ⟨(hf n).1.symm, (hf n).2.1.symm, (hf n).2.2.symm⟩ ih

theorem f2_mem_right {ns ms : List (Node α)} (h : List.Forall₂ EqData ns ms) :
    ∀ b ∈ ms, ∃ a ∈ ns, EqData a b := by
  induction h with
  | nil => intro b hb; simp at hb
  | cons hd tl ih =>
    intro b hb
    rcases List.mem_cons.mp hb with rfl | hb
    · exact ⟨_, List.mem_cons_self _ _, hd⟩
    · obtain ⟨a, ha, hab⟩ := ih b hb
      exact ⟨a, List.mem_cons_of_mem _ ha, hab⟩

theorem sorted_data {ns ms : List (Node α)} (h : List.Forall₂ EqData ns ms)
    (hs : Sorted ns) : Sorted ms := by
  induction h with
  | nil => exact List.Pairwise.nil
  | cons hd tl ih =>
    rw [Sorted, List.pairwise_cons] at hs ⊢
    refine ⟨?_, ih hs.2⟩
    intro b hb
    obtain ⟨a, ha, hab⟩ := f2_mem_right tl b hb
    have := hs.1 a ha
    rw [hd.1, hab.1] at this
    exact this

theorem f2_head? {ns ms : List (Node α)} (h : List.Forall₂ EqData ns ms) :
    ∀ b ∈ ms.head?, ∃ a ∈ ns.head?, EqData a b := by
  cases h with
  | nil => intro b hb; simp at hb
  | cons hd tl =>
    intro b hb
    simp only [List.head?_cons, Option.mem_def, Option.some.injEq] at hb
    subst hb
    exact ⟨_, rfl, hd⟩

theorem noShadow_data {ns ms : List (Node α)} (h : List.Forall₂ EqData ns ms)
    (hs : NoShadow ns) : NoShadow ms := by
  induction h with
  | nil => exact List.chain'_nil
  | cons hd tl ih =>
    rw [NoShadow, List.chain'_cons'] at hs ⊢
    refine ⟨?_, ih hs.2⟩
    intro y hy i hi
    obtain ⟨a, ha, hab⟩ := f2_head? tl y hy
    have := hs.1 a ha i (by rwa [hd.2.1])
    rw [hd.1] at this
    rw [← hab.1]
    exact this

theorem nodesOK_data {ns ms : List (Node α)} (h : List.Forall₂ EqData ns ms)
    (hs : ∀ n ∈ ns, NodeOK n) : ∀ n ∈ ms, NodeOK n := by
  intro n hn
  obtain ⟨a, ha, hab⟩ := f2_mem_right h n hn
  have := hs a ha
  unfold NodeOK at this ⊢
  rw [← hab.2.1, ← hab.2.2]
  exact this

theorem absFind_data {ns ms : List (Node α)} (h : List.Forall₂ EqData ns ms) (k : Nat) :
    (absFind ns k = none ∧ absFind ms k = none) ∨
      (∃ a b, absFind ns k = some a ∧ absFind ms k = some b ∧ EqData a b) := by
  induction h with
  | nil => exact Or.inl ⟨rfl, rfl⟩
  | cons hd tl ih =>
    rename_i a b l₁ l₂
    rw [absFind_cons, absFind_cons]
    rcases ih with ⟨h1, h2⟩ | ⟨x, y, h1, h2, hxy⟩
    · rw [h1, h2]
      by_cases hb : a.base ≤ k
      · refine Or.inr ⟨a, b, ?_, ?_, hd⟩
        · simp only; rw [if_pos hb]
        · simp only; rw [if_pos (hd.1 ▸ hb)]
      · refine Or.inl ⟨by simp [hb], ?_⟩
        simp only
        rw [if_neg (by rw [← hd.1]; exact hb)]
    · rw [h1, h2]
      exact Or.inr ⟨x, y, rfl, rfl, hxy⟩

theorem absLookup_data {ns ms : List (Node α)} (h : List.Forall₂ EqData ns ms)
    (inv : α) (k : Nat) : absLookup inv ns k = absLookup inv ms k := by
  rcases absFind_data h k with ⟨h1, h2⟩ | ⟨a, b, h1, h2, hab⟩
  · unfold absLookup
    simp only [h1, h2]
  · unfold absLookup
    simp only [h1, h2]
    obtain ⟨hb, hm, he⟩ := hab
    rw [hb, Node.hasElement, Node.hasElement, hm, he]

theorem f2_length {ns ms : List (Node α)} (h : List.Forall₂ EqData ns ms) :
    ns.length = ms.length := List.Forall₂.length_eq h

/-- `increaseLevel` keeps the block data and the block order; it only
changes levels and the PRNG state, and raises the height by one. -/
theorem increaseLevelC_data (s : VState α) :
    List.Forall₂ EqData s.nodes (increaseLevelC s).nodes ∧
      (increaseLevelC s).level = s.level + 1 := by
  unfold increaseLevelC
  exact ⟨promoteWalk_data s.level s.nodes s.rng false, rfl⟩

/-- `decreaseLevel` keeps the block data and the block order. -/
theorem decreaseLevelC_data (s : VState α) :
    List.Forall₂ EqData s.nodes (decreaseLevelC s).nodes ∧
      (decreaseLevelC s).level = s.level - 1 := by
  unfold decreaseLevelC
  refine ⟨map_level_data _ ?_ _, rfl⟩
  intro n
  by_cases h : s.level ≤ n.level <;> simp [h]

end VSL

namespace VSL

variable {α : Type}

/-! ### Small helpers -/

theorem isIndexValid_iff (d : Nat) : isIndexValid d = true ↔ d < capacity_limit := by
  simp [isIndexValid]

theorem absLookup_unfold (inv : α) (ns : List (Node α)) (j : Nat) (n : Node α)
    (h : absFind ns j = some n) :
    absLookup inv ns j =
      if j - n.base < capacity_limit ∧ n.hasElement (j - n.base) = true
      then some (n.elements.getD (j - n.base) inv) else none := by
  unfold absLookup
  simp only [h]

theorem absLookup_of_none (inv : α) (ns : List (Node α)) (j : Nat)
    (h : absFind ns j = none) : absLookup inv ns j = none := by
  unfold absLookup
  simp only [h]

theorem absFind_mid (A₀ : List (Node α)) (x : Node α) (B : List (Node α)) (j : Nat) :
    absFind (A₀ ++ x :: B) j =
      match absFind B j with
      | some m => some m
      | none => if x.base ≤ j then some x else absFind A₀ j := by
  rw [absFind_append, absFind_cons]
  cases h : absFind B j with
  | none => by_cases hx : x.base ≤ j <;> simp [hx]
  | some m => simp

theorem set_same {β : Type} (l : List β) :
    ∀ i x, l.get? i = some x → l.set i x = l := by
  induction l with
  | nil => intro i x h; simp at h
  | cons y l ih =>
    intro i x h
    match i with
    | 0 => injection h with h; rw [List.set_cons_zero, h]
    | i + 1 =>
      simp only [List.get?] at h
      rw [List.set_cons_succ, ih i x h]

theorem f2_refl (l : List (Node α)) : List.Forall₂ EqData l l := by
  induction l with
  | nil => exact List.Forall₂.nil
  | cons n l ih => exact List.Forall₂.cons (eqData_refl n) ih

theorem f2_trans {l₁ l₂ l₃ : List (Node α)} (h1 : List.Forall₂ EqData l₁ l₂)
    (h2 : List.Forall₂ EqData l₂ l₃) : List.Forall₂ EqData l₁ l₃ := by
  induction h1 generalizing l₃ with
  | nil => cases h2; exact List.Forall₂.nil
  | cons hd tl ih =>
    cases h2 with
    | cons hd2 tl2 =>
      exact List.Forall₂.cons
        ⟨hd.1.trans hd2.1, hd.2.1.trans hd2.2.1, hd.2.2.trans hd2.2.2⟩ (ih tl2)

theorem f2_append {l₁ l₂ l₃ l₄ : List (Node α)} (h1 : List.Forall₂ EqData l₁ l₂)
    (h2 : List.Forall₂ EqData l₃ l₄) : List.Forall₂ EqData (l₁ ++ l₃) (l₂ ++ l₄) := by
  induction h1 with
  | nil => exact h2
  | cons hd tl ih => exact List.Forall₂.cons hd ih

theorem f2_get? {l₁ l₂ : List (Node α)} (h : List.Forall₂ EqData l₁ l₂) :
    ∀ i, (l₁.get? i = none ∧ l₂.get? i = none) ∨
      (∃ a b, l₁.get? i = some a ∧ l₂.get? i = some b ∧ EqData a b) := by
  induction h with
  | nil => intro i; exact Or.inl ⟨rfl, rfl⟩
  | cons hd tl ih =>
    intro i
    match i with
    | 0 => exact Or.inr ⟨_, _, rfl, rfl, hd⟩
    | i + 1 => exact ih i

theorem f2_modify {l₁ l₂ : List (Node α)} (h : List.Forall₂ EqData l₁ l₂)
    (f : Node α → Node α) (hf : ∀ a b, EqData a b → EqData (f a) (f b)) :
    ∀ i, List.Forall₂ EqData (l₁.modify f i) (l₂.modify f i) := by
  induction h with
  | nil => intro i; rw [List.modify_nil]; exact List.Forall₂.nil
  | cons hd tl ih =>
    intro i
    match i with
    | 0 =>
      rw [List.modify_zero_cons, List.modify_zero_cons]
      exact List.Forall₂.cons (hf _ _ hd) tl
    | i + 1 =>
      rw [List.modify_succ_cons, List.modify_succ_cons]
      exact List.Forall₂.cons hd (ih i)

end VSL

namespace VSL

variable {α : Type}

/-! ### Properties of `touchNode` and `writeNode` -/

theorem touchNode_base (n : Node α) (off : Nat) (inv : α) :
    (touchNode n off inv).base = n.base := by
  unfold touchNode
  by_cases h : n.hasElement off = true
  · rw [if_pos h]
  · rw [if_neg h, setElement_base]

theorem touchNode_level (n : Node α) (off : Nat) (inv : α) :
    (touchNode n off inv).level = n.level := by
  unfold touchNode
  by_cases h : n.hasElement off = true
  · rw [if_pos h]
  · rw [if_neg h, setElement_level]

theorem touchNode_bit (n : Node α) (off : Nat) (inv : α) (hoff : off < capacity_limit) :
    ∀ j, (touchNode n off inv).bitMap.testBit j =
      (n.bitMap.testBit j || decide (j = off)) := by
  intro j
  unfold touchNode
  by_cases h : n.hasElement off = true
  · rw [if_pos h]
    rcases eq_or_ne j off with rfl | hne
    · have : n.bitMap.testBit j = true := by
        unfold Node.hasElement bitsGet at h
        exact ((Bool.and_eq_true _ _).mp h).2
      simp [this]
    · simp [hne]
  · rw [if_neg h, setElement_bitMap n off inv inv hoff]
    exact bitsGet_setOne n.bitMap off j

theorem touchNode_len_ge (n : Node α) (off : Nat) (inv : α) :
    n.elements.length ≤ (touchNode n off inv).elements.length := by
  unfold touchNode
  by_cases h : n.hasElement off = true
  · rw [if_pos h]
  · rw [if_neg h]
    by_cases hoff : off < capacity_limit
    · rw [setElement_length n off inv inv hoff]
      by_cases h2 : n.elements.length ≤ off
      · rw [if_pos h2]; exact capNext_le _ _
      · rw [if_neg h2]
    · unfold Node.setElement
      rw [if_pos (by omega)]

theorem touchNode_len_capSet (n : Node α) (off : Nat) (inv : α)
    (hoff : off < capacity_limit) (hmem : n.elements.length ∈ capSet) :
    (touchNode n off inv).elements.length ∈ capSet := by
  unfold touchNode
  by_cases h : n.hasElement off = true
  · rw [if_pos h]; exact hmem
  · rw [if_neg h, setElement_length n off inv inv hoff]
    by_cases h2 : n.elements.length ≤ off
    · rw [if_pos h2]
      have := (capNext_facts n.elements.length hmem off (by
        have : capacity_limit = 64 := rfl
        omega) h2).2.2
      simp only [capSet, List.mem_cons]
      simp only [List.mem_cons] at this
      tauto
    · rw [if_neg h2]; exact hmem

theorem touchNode_lt_len (n : Node α) (off : Nat) (inv : α) (hoff : off < capacity_limit) :
    off < (touchNode n off inv).elements.length := by
  unfold touchNode
  by_cases h : n.hasElement off = true
  · rw [if_pos h]
    unfold Node.hasElement at h
    have := ((Bool.and_eq_true _ _).mp h).1
    simpa using this
  · rw [if_neg h]
    exact setElement_lt_length n off inv inv hoff

theorem touchNode_get_self (n : Node α) (off : Nat) (inv : α) (hoff : off < capacity_limit) :
    (touchNode n off inv).elements.get? off =
      if n.hasElement off = true then n.elements.get? off else some inv := by
  unfold touchNode
  by_cases h : n.hasElement off = true
  · rw [if_pos h, if_pos h]
  · rw [if_neg h, if_neg h]
    exact setElement_get_self n off inv inv hoff

theorem touchNode_get_ne (n : Node α) (off j : Nat) (inv : α) (hoff : off < capacity_limit)
    (hne : j ≠ off) (hj : j < n.elements.length) :
    (touchNode n off inv).elements.get? j = n.elements.get? j := by
  unfold touchNode
  by_cases h : n.hasElement off = true
  · rw [if_pos h]
  · rw [if_neg h]
    exact setElement_get_ne n off j inv inv hoff hne hj

theorem writeNode_base (n : Node α) (off : Nat) (v inv : α) :
    (writeNode n off v inv).base = n.base := touchNode_base n off inv

theorem writeNode_bit (n : Node α) (off : Nat) (v inv : α) (hoff : off < capacity_limit) :
    ∀ j, (writeNode n off v inv).bitMap.testBit j =
      (n.bitMap.testBit j || decide (j = off)) := touchNode_bit n off inv hoff

theorem writeNode_len_ge (n : Node α) (off : Nat) (v inv : α) :
    n.elements.length ≤ (writeNode n off v inv).elements.length := by
  unfold writeNode
  simp only [List.length_set]
  exact touchNode_len_ge n off inv

theorem writeNode_len_capSet (n : Node α) (off : Nat) (v inv : α)
    (hoff : off < capacity_limit) (hmem : n.elements.length ∈ capSet) :
    (writeNode n off v inv).elements.length ∈ capSet := by
  unfold writeNode
  simp only [List.length_set]
  exact touchNode_len_capSet n off inv hoff hmem

theorem writeNode_lt_len (n : Node α) (off : Nat) (v inv : α) (hoff : off < capacity_limit) :
    off < (writeNode n off v inv).elements.length := by
  unfold writeNode
  simp only [List.length_set]
  exact touchNode_lt_len n off inv hoff

theorem writeNode_get_self (n : Node α) (off : Nat) (v inv : α) (hoff : off < capacity_limit) :
    (writeNode n off v inv).elements.get? off = some v := by
  unfold writeNode
  exact get?_set_self _ _ _ (touchNode_lt_len n off inv hoff)

theorem writeNode_get_ne (n : Node α) (off j : Nat) (v inv : α) (hoff : off < capacity_limit)
    (hne : j ≠ off) (hj : j < n.elements.length) :
    (writeNode n off v inv).elements.get? j = n.elements.get? j := by
  unfold writeNode
  simp only
  rw [List.get?_set_ne _ _ (fun h => hne h.symm)]
  exact touchNode_get_ne n off j inv hoff hne hj

/-- Value and presence of the fresh block allocated by `insertNode`. -/
theorem newNode_eval (k ℓ : Nat) (v : α) :
    Node.setElement ⟨k, ℓ, 0, []⟩ 0 v v = ⟨k, ℓ, 1, [v, v, v, v]⟩ := by
  unfold Node.setElement
  norm_num [capacity_limit, capacity_init, capLoop, bitsSetOne, List.replicate]

end VSL

namespace VSL

variable {α : Type}

/-! ### Surgery on the invariants -/

theorem sorted_mid_subst (A₀ : List (Node α)) (x y : Node α) (B : List (Node α))
    (h : Sorted (A₀ ++ x :: B)) (hxy : y.base = x.base) : Sorted (A₀ ++ y :: B) := by
  rw [Sorted, List.pairwise_append] at h ⊢
  obtain ⟨h1, h2, h3⟩ := h
  rw [List.pairwise_cons] at h2 ⊢
  refine ⟨h1, ⟨?_, h2.2⟩, ?_⟩
  · intro b hb; rw [hxy]; exact h2.1 b hb
  · intro a ha b hb
    rcases List.mem_cons.mp hb with rfl | hb
    · rw [hxy]; exact h3 a ha x (List.mem_cons_self _ _)
    · exact h3 a ha b (List.mem_cons_of_mem _ hb)

theorem noShadow_mid_subst (A₀ : List (Node α)) (x y : Node α) (B : List (Node α))
    (h : NoShadow (A₀ ++ x :: B)) (hbase : y.base = x.base)
    (hbits : ∀ i, y.bitMap.testBit i →
      x.bitMap.testBit i = true ∨ (∀ b ∈ B.head?, y.base + i < b.base)) :
    NoShadow (A₀ ++ y :: B) := by
  rw [NoShadow, List.chain'_append] at h ⊢
  obtain ⟨h1, h2, h3⟩ := h
  rw [List.chain'_cons'] at h2 ⊢
  refine ⟨h1, ⟨?_, h2.2⟩, ?_⟩
  · intro q hq i hi
    rcases hbits i hi with hx | hy
    · rw [hbase]; exact h2.1 q hq i hx
    · exact hy q hq
  · intro p hp q hq i hi
    simp only [List.head?_cons, Option.mem_def, Option.some.injEq] at hq
    subst hq
    rw [hbase]
    exact h3 p hp x (by simp) i hi

theorem sorted_drop_mid (A₀ : List (Node α)) (x : Node α) (B : List (Node α))
    (h : Sorted (A₀ ++ x :: B)) : Sorted (A₀ ++ B) := by
  rw [Sorted, List.pairwise_append] at h ⊢
  obtain ⟨h1, h2, h3⟩ := h
  rw [List.pairwise_cons] at h2
  exact ⟨h1, h2.2, fun a ha b hb => h3 a ha b (List.mem_cons_of_mem _ hb)⟩

theorem noShadow_drop_mid (A₀ : List (Node α)) (x : Node α) (B : List (Node α))
    (h : NoShadow (A₀ ++ x :: B)) (hsort : Sorted (A₀ ++ x :: B)) :
    NoShadow (A₀ ++ B) := by
  rw [NoShadow, List.chain'_append] at h ⊢
  obtain ⟨h1, h2, h3⟩ := h
  rw [List.chain'_cons'] at h2
  refine ⟨h1, h2.2, ?_⟩
  intro p hp q hq i hi
  have hpx : p.base + i < x.base := h3 p hp x (by simp) i hi
  have hxq : x.base < q.base := by
    rw [Sorted, List.pairwise_append] at hsort
    have := hsort.2.1
    rw [List.pairwise_cons] at this
    exact this.1 q (List.mem_of_mem_head? hq)
  omega

theorem sorted_insert_mid (A₀ : List (Node α)) (x : Node α) (B : List (Node α))
    (h : Sorted (A₀ ++ B)) (hlow : ∀ a ∈ A₀, a.base < x.base)
    (hhigh : ∀ b ∈ B, x.base < b.base) : Sorted (A₀ ++ x :: B) := by
  rw [Sorted, List.pairwise_append] at h ⊢
  obtain ⟨h1, h2, h3⟩ := h
  rw [List.pairwise_cons]
  refine ⟨h1, ⟨hhigh, h2⟩, ?_⟩
  intro a ha b hb
  rcases List.mem_cons.mp hb with rfl | hb
  · exact hlow a ha
  · exact h3 a ha b hb

theorem noShadow_insert_mid (A₀ : List (Node α)) (x : Node α) (B : List (Node α))
    (h : NoShadow (A₀ ++ B))
    (hleft : ∀ p ∈ A₀.getLast?, ∀ i, p.bitMap.testBit i → p.base + i < x.base)
    (hright : ∀ q ∈ B.head?, ∀ i, x.bitMap.testBit i → x.base + i < q.base) :
    NoShadow (A₀ ++ x :: B) := by
  rw [NoShadow, List.chain'_append] at h ⊢
  obtain ⟨h1, h2, h3⟩ := h
  rw [List.chain'_cons']
  refine ⟨h1, ⟨hright, h2⟩, ?_⟩
  intro p hp q hq i hi
  simp only [List.head?_cons, Option.mem_def, Option.some.injEq] at hq
  subst hq
  exact hleft p hp i hi

/-- Boundary fact: the link between the last block of the prefix and the
block that follows it in the chain. -/
theorem noShadow_adj (C : List (Node α)) (c a : Node α) (rest : List (Node α))
    (h : NoShadow ((C ++ [c]) ++ a :: rest)) :
    ∀ i, c.bitMap.testBit i → c.base + i < a.base := by
  rw [List.append_assoc, List.singleton_append, NoShadow, List.chain'_append] at h
  have h2 := h.2.1
  rw [List.chain'_cons'] at h2
  intro i hi
  exact h2.1 a (by simp) i hi

/-- In a sorted, shadow-free list, a key at or beyond the base of the block
following the prefix is never answered by the prefix. -/
theorem absLookup_low_none (inv : α) (A₀ : List (Node α)) (a : Node α)
    (rest : List (Node α)) (j : Nat)
    (hns : NoShadow (A₀ ++ a :: rest)) (hs : Sorted (A₀ ++ a :: rest))
    (hj : a.base ≤ j) : absLookup inv A₀ j = none := by
  rcases List.eq_nil_or_concat A₀ with rfl | ⟨C, c, rfl⟩
  · rfl
  · rw [List.concat_eq_append] at *
    have hall : ∀ x ∈ C ++ [c], x.base ≤ j := by
      intro x hx
      rw [Sorted, List.pairwise_append] at hs
      have := hs.2.2 x hx a (List.mem_cons_self _ _)
      omega
    have hfind : absFind (C ++ [c]) j = some c := by
      rw [absFind_all_le _ _ hall, List.getLast?_concat]
    rw [absLookup_unfold inv _ j c hfind]
    have hrel := noShadow_adj C c a rest hns
    rw [if_neg]
    rintro ⟨hlt, hhas⟩
    unfold Node.hasElement bitsGet at hhas
    have hbit := ((Bool.and_eq_true _ _).mp hhas).2
    have := hrel (j - c.base) hbit
    have hcj : c.base ≤ j := hall c (by simp)
    omega

/-! ### The covering bridge -/

theorem covering_low_nil (ns : List (Node α)) (k : Nat) (h : lowPart ns k = []) :
    coveringAt ns (lastPos ns k) k = none := by
  rw [lastPos_eq_low_length, h]
  rfl

theorem covering_low_concat (ns : List (Node α)) (k : Nat) (A₀ : List (Node α))
    (a : Node α) (h : lowPart ns k = A₀ ++ [a]) :
    ns = A₀ ++ a :: highPart ns k ∧ lastPos ns k = A₀.length + 1 ∧
    coveringAt ns (lastPos ns k) k =
      (if k - a.base < capacity_limit then some (A₀.length, a) else none) := by
  have hsplit : ns = A₀ ++ a :: highPart ns k := by
    conv_lhs => rw [← low_append_high ns k]
    rw [h, List.append_assoc, List.singleton_append]
  have hlen : lastPos ns k = A₀.length + 1 := by
    rw [lastPos_eq_low_length, h, List.length_append, List.length_singleton]
  have hbase : a.base ≤ k := by
    have : a ∈ lowPart ns k := by rw [h]; simp
    exact lowPart_le ns k a this
  refine ⟨hsplit, hlen, ?_⟩
  rw [hlen]
  unfold coveringAt
  have hget : ns.get? A₀.length = some a := by
    rw [hsplit]; exact get?_at_prefix_len A₀ a _
  simp only [hget]
  by_cases hv : k - a.base < capacity_limit
  · rw [if_pos ⟨hbase, (isIndexValid_iff _).mpr hv⟩, if_pos hv]
  · rw [if_neg (fun hc => hv ((isIndexValid_iff _).mp hc.2)), if_neg hv]

end VSL

namespace VSL

variable {α : Type}

theorem absFind_of_low_nil (ns : List (Node α)) (k : Nat) (hs : Sorted ns)
    (h : lowPart ns k = []) : absFind ns k = none := by
  conv_lhs => rw [← low_append_high ns k, h, List.nil_append]
  exact absFind_none _ _ (highPart_gt ns k hs)

theorem absFind_of_low_concat (ns : List (Node α)) (k : Nat) (hs : Sorted ns)
    (A₀ : List (Node α)) (a : Node α) (h : lowPart ns k = A₀ ++ [a]) :
    absFind ns k = some a := by
  have hbase : a.base ≤ k := lowPart_le ns k a (by rw [h]; simp)
  have hB : absFind (highPart ns k) k = none := absFind_none _ _ (highPart_gt ns k hs)
  conv_lhs => rw [← low_append_high ns k, h, List.append_assoc, List.singleton_append]
  rw [absFind_mid, hB]
  simp only
  rw [if_pos hbase]

/-- `has` agrees with the reference lookup on invariant-satisfying states. -/
theorem hasOp_abs (inv : α) (s : VState α) (k : Nat) (hI : Inv s) :
    hasOp s k = (absLookup inv s.nodes k).isSome := by
  obtain ⟨hs, hns, hok⟩ := hI
  unfold hasOp
  rw [findLeftIdx_eq_lastPos s k hs]
  rcases List.eq_nil_or_concat (lowPart s.nodes k) with hnil | ⟨A₀, a, hcat⟩
  · rw [absLookup_of_none inv s.nodes k (absFind_of_low_nil s.nodes k hs hnil)]
    by_cases h0 : s.nodes.length = 0
    · rw [if_pos h0]; rfl
    · rw [if_neg h0]
      simp only [covering_low_nil s.nodes k hnil]
      rfl
  · rw [List.concat_eq_append] at hcat
    obtain ⟨hsplit, hlen, hcov⟩ := covering_low_concat s.nodes k A₀ a hcat
    have h0 : ¬ s.nodes.length = 0 := by rw [hsplit]; simp
    rw [if_neg h0,
      absLookup_unfold inv s.nodes k a (absFind_of_low_concat s.nodes k hs A₀ a hcat)]
    by_cases hv : k - a.base < capacity_limit
    · rw [if_pos hv] at hcov
      simp only [hcov]
      by_cases hh : a.hasElement (k - a.base) = true
      · rw [if_pos ⟨hv, hh⟩, hh]; rfl
      · rw [if_neg (fun hc => hh hc.2)]
        revert hh
        cases a.hasElement (k - a.base) <;> simp
    · rw [if_neg hv] at hcov
      simp only [hcov]
      rw [if_neg (fun hc => hv hc.1)]
      rfl

/-- The read `operator[] const` agrees with the reference lookup. -/
theorem getOp_abs (inv : α) (s : VState α) (k : Nat) (hI : Inv s) :
    getOp inv s k = (absLookup inv s.nodes k).getD inv := by
  obtain ⟨hs, hns, hok⟩ := hI
  unfold getOp
  rw [findLeftIdx_eq_lastPos s k hs]
  rcases List.eq_nil_or_concat (lowPart s.nodes k) with hnil | ⟨A₀, a, hcat⟩
  · rw [absLookup_of_none inv s.nodes k (absFind_of_low_nil s.nodes k hs hnil)]
    simp only [covering_low_nil s.nodes k hnil]
    rfl
  · rw [List.concat_eq_append] at hcat
    obtain ⟨hsplit, hlen, hcov⟩ := covering_low_concat s.nodes k A₀ a hcat
    rw [absLookup_unfold inv s.nodes k a (absFind_of_low_concat s.nodes k hs A₀ a hcat)]
    by_cases hv : k - a.base < capacity_limit
    · rw [if_pos hv] at hcov
      simp only [hcov]
      by_cases hh : a.hasElement (k - a.base) = true
      · rw [if_pos hh, if_pos ⟨hv, hh⟩]
        rfl
      · rw [if_neg hh, if_neg (fun hc => hh hc.2)]
        rfl
    · rw [if_neg hv] at hcov
      simp only [hcov]
      rw [if_neg (fun hc => hv hc.1)]
      rfl

/-- A refused `erase` leaves the container untouched. -/
theorem eraseOp_false_eq (s : VState α) (k : Nat) (h : (eraseOp s k).2 = false) :
    (eraseOp s k).1 = s := by
  unfold eraseOp at h ⊢
  by_cases h0 : s.nodes.length = 0
  · rw [if_pos h0]
  · rw [if_neg h0] at h ⊢
    cases hcov : coveringAt s.nodes (findLeftIdx s k) k with
    | none => simp [hcov]
    | some pr =>
      obtain ⟨i, n⟩ := pr
      simp only [hcov] at h ⊢
      by_cases hh : n.hasElement (k - n.base) = true
      · exfalso
        simp only [hh, if_true] at h
        by_cases he : (n.deleteElement (k - n.base)).isEmpty = true <;> simp [he] at h
      · simp [hh]

end VSL

namespace VSL

variable {α : Type}

theorem absLookup_congr_find (inv : α) (ns ms : List (Node α)) (j : Nat)
    (h : absFind ns j = absFind ms j) : absLookup inv ns j = absLookup inv ms j := by
  unfold absLookup
  rw [h]

theorem deleteElement_eq (a : Node α) (off : Nat) (h : off < a.elements.length) :
    a.deleteElement off = { a with bitMap := bitsSetZero a.bitMap off } := by
  unfold Node.deleteElement
  rw [if_neg (by omega)]

theorem hasElement_setZero_ne (a : Node α) (off j : Nat) (hne : j ≠ off) :
    Node.hasElement { a with bitMap := bitsSetZero a.bitMap off } j = a.hasElement j := by
  unfold Node.hasElement
  simp only
  unfold bitsGet
  rw [show (bitsSetZero a.bitMap off).testBit j = (a.bitMap.testBit j && !(decide (j = off)))
    from bitsGet_setZero a.bitMap off j]
  simp [hne]

theorem hasElement_setZero_self (a : Node α) (off : Nat) :
    Node.hasElement { a with bitMap := bitsSetZero a.bitMap off } off = false := by
  unfold Node.hasElement
  simp only
  unfold bitsGet
  rw [show (bitsSetZero a.bitMap off).testBit off = (a.bitMap.testBit off && !(decide (off = off)))
    from bitsGet_setZero a.bitMap off off]
  simp

theorem hasElement_imp_lt (a : Node α) (off : Nat) (h : a.hasElement off = true) :
    off < a.elements.length := by
  unfold Node.hasElement at h
  simpa using ((Bool.and_eq_true _ _).mp h).1

theorem hasElement_imp_bit (a : Node α) (off : Nat) (h : a.hasElement off = true) :
    a.bitMap.testBit off = true := by
  unfold Node.hasElement bitsGet at h
  exact ((Bool.and_eq_true _ _).mp h).2

end VSL

namespace VSL

variable {α : Type}

/-- Simulation of `erase` against the reference map: the invariant is
preserved, the key is removed, and the returned Boolean reports presence. -/
theorem erase_sim (inv : α) (s : VState α) (k : Nat) (hI : Inv s) :
    Inv (eraseOp s k).1 ∧
    (∀ j, absLookup inv (eraseOp s k).1.nodes j =
      if j = k then none else absLookup inv s.nodes j) ∧
    (eraseOp s k).2 = (absLookup inv s.nodes k).isSome := by
  obtain ⟨hs, hns, hok⟩ := hI
  by_cases h0 : s.nodes.length = 0
  · have hnil : s.nodes = [] := List.length_eq_zero.mp h0
    have hstate : eraseOp s k = (s, false) := by
      unfold eraseOp
      rw [if_pos h0]
    rw [hstate]
    refine ⟨⟨hs, hns, hok⟩, ?_, ?_⟩
    · intro j
      rw [hnil]
      by_cases hj : j = k <;> simp [hj, absLookup, absFind]
    · rw [hnil]; rfl
  · rcases List.eq_nil_or_concat (lowPart s.nodes k) with hnil | ⟨A₀, a, hcat⟩
    · have hfind := absFind_of_low_nil s.nodes k hs hnil
      have hstate : eraseOp s k = (s, false) := by
        unfold eraseOp
        rw [if_neg h0, findLeftIdx_eq_lastPos s k hs]
        simp only [covering_low_nil s.nodes k hnil]
      rw [hstate]
      refine ⟨⟨hs, hns, hok⟩, ?_, ?_⟩
      · intro j
        by_cases hj : j = k
        · rw [if_pos hj, hj, absLookup_of_none inv s.nodes k hfind]
        · rw [if_neg hj]
      · rw [absLookup_of_none inv s.nodes k hfind]
        rfl
    · rw [List.concat_eq_append] at hcat
      obtain ⟨hsplit, hlen, hcov⟩ := covering_low_concat s.nodes k A₀ a hcat
      have hfind := absFind_of_low_concat s.nodes k hs A₀ a hcat
      have hbase : a.base ≤ k := lowPart_le s.nodes k a (by rw [hcat]; simp)
      have hBgt : ∀ b ∈ highPart s.nodes k, k < b.base := highPart_gt s.nodes k hs
      have hBfindk : absFind (highPart s.nodes k) k = none := absFind_none _ _ hBgt
      by_cases hv : k - a.base < capacity_limit
      · rw [if_pos hv] at hcov
        by_cases hh : a.hasElement (k - a.base) = true
        · -- a bit is cleared
          have hlt := hasElement_imp_lt a _ hh
          have hdel : a.deleteElement (k - a.base) =
              { a with bitMap := bitsSetZero a.bitMap (k - a.base) } :=
            deleteElement_eq a _ hlt
          have hlook : absLookup inv s.nodes k =
              some (a.elements.getD (k - a.base) inv) := by
            rw [absLookup_unfold inv s.nodes k a hfind, if_pos ⟨hv, hh⟩]
          -- facts used by both sub-branches
          have hjne : ∀ j, a.base ≤ j → j ≠ k → j - a.base ≠ k - a.base := by
            intro j haj hj hc
            exact hj (by omega)
          by_cases hemp : (a.deleteElement (k - a.base)).isEmpty = true
          · -- the block becomes empty and is unlinked
            have hbits : ∀ i, i ≠ k - a.base → a.bitMap.testBit i = false := by
              intro i hine
              rw [hdel] at hemp
              unfold Node.isEmpty at hemp
              simp only [beq_iff_eq] at hemp
              have h3 := (bitMap_eq_zero_iff _).mp hemp i
              rw [testBit_setZero] at h3
              simpa [hine] using h3
            have hstate : eraseOp s k =
                (removeNodeAt
                  { s with nodes := s.nodes.set A₀.length (a.deleteElement (k - a.base)) }
                  A₀.length, true) := by
              unfold eraseOp
              rw [if_neg h0, findLeftIdx_eq_lastPos s k hs]
              simp only [hcov, hh, if_true, hemp]
            have hset : s.nodes.set A₀.length (a.deleteElement (k - a.base)) =
                A₀ ++ a.deleteElement (k - a.base) :: highPart s.nodes k := by
              conv_lhs => rw [hsplit]
              exact set_at_prefix_len A₀ a _ _
            -- the canonical erased list
            have hmid : (A₀ ++ a.deleteElement (k - a.base) :: highPart s.nodes k).eraseIdx
                A₀.length = A₀ ++ highPart s.nodes k :=
              eraseIdx_at_prefix_len A₀ _ _
            have hsorted' : Sorted (A₀ ++ highPart s.nodes k) :=
              sorted_drop_mid A₀ a _ (hsplit ▸ hs)
            have hshadow' : NoShadow (A₀ ++ highPart s.nodes k) :=
              noShadow_drop_mid A₀ a _ (hsplit ▸ hns) (hsplit ▸ hs)
            have hok' : ∀ n ∈ A₀ ++ highPart s.nodes k, NodeOK n := by
              intro n hn
              refine hok n ?_
              rw [hsplit]
              rcases List.mem_append.mp hn with h | h
              · exact List.mem_append.mpr (Or.inl h)
              · exact List.mem_append.mpr (Or.inr (List.mem_cons_of_mem _ h))
            have hlook' : ∀ j, absLookup inv (A₀ ++ highPart s.nodes k) j =
                if j = k then none else absLookup inv s.nodes j := by
              intro j
              by_cases hj : j = k
              · rw [if_pos hj, hj]
                have hfind' : absFind (A₀ ++ highPart s.nodes k) k = absFind A₀ k := by
                  rw [absFind_append, hBfindk]
                rw [absLookup_congr_find inv _ A₀ k hfind']
                exact absLookup_low_none inv A₀ a _ k (hsplit ▸ hns) (hsplit ▸ hs) hbase
              · rw [if_neg hj]
                rw [show absLookup inv s.nodes j =
                    absLookup inv (A₀ ++ a :: highPart s.nodes k) j from by rw [← hsplit]]
                cases hB : absFind (highPart s.nodes k) j with
                | some m =>
                  have h1 : absFind (A₀ ++ highPart s.nodes k) j = some m := by
                    rw [absFind_append, hB]
                  have h2 : absFind (A₀ ++ a :: highPart s.nodes k) j = some m := by
                    rw [absFind_mid, hB]
                  rw [absLookup_unfold inv _ j m h1, absLookup_unfold inv _ j m h2]
                | none =>
                  by_cases hab : a.base ≤ j
                  · have h2 : absFind (A₀ ++ a :: highPart s.nodes k) j = some a := by
                      rw [absFind_mid, hB]
                      simp only
                      rw [if_pos hab]
                    rw [absLookup_unfold inv _ j a h2]
                    have hbitj : a.bitMap.testBit (j - a.base) = false :=
                      hbits _ (hjne j hab hj)
                    have hhasj : a.hasElement (j - a.base) = false := by
                      unfold Node.hasElement bitsGet
                      rw [hbitj]
                      simp
                    rw [if_neg (fun hc => by rw [hhasj] at hc; exact Bool.false_ne_true hc.2)]
                    have hfind' : absFind (A₀ ++ highPart s.nodes k) j = absFind A₀ j := by
                      rw [absFind_append, hB]
                    rw [absLookup_congr_find inv _ A₀ j hfind']
                    exact absLookup_low_none inv A₀ a _ j (hsplit ▸ hns) (hsplit ▸ hs) hab
                  · have h1 : absFind (A₀ ++ highPart s.nodes k) j = absFind A₀ j := by
                      rw [absFind_append, hB]
                    have h2 : absFind (A₀ ++ a :: highPart s.nodes k) j = absFind A₀ j := by
                      rw [absFind_mid, hB]
                      simp only
                      rw [if_neg hab]
                    rw [absLookup_congr_find inv _ A₀ j h1, absLookup_congr_find inv _ A₀ j h2]
            -- now push everything through removeNodeAt
            have hgoal : ∀ (t : VState α), List.Forall₂ EqData (A₀ ++ highPart s.nodes k) t.nodes →
                Inv t ∧ (∀ j, absLookup inv t.nodes j =
                  if j = k then none else absLookup inv s.nodes j) := by
              intro t hf2
              refine ⟨⟨sorted_data hf2 hsorted', noShadow_data hf2 hshadow',
                nodesOK_data hf2 hok'⟩, ?_⟩
              intro j
              rw [← absLookup_data hf2 inv j]
              exact hlook' j
            rw [hstate]
            unfold removeNodeAt
            dsimp only
            rw [hset, hmid]
            by_cases hguard : s.level < 4 ∨
                2 ^ s.level - 2 ^ 4 < (A₀ ++ highPart s.nodes k).length
            · rw [if_pos hguard]
              exact ⟨(hgoal _ (f2_refl _)).1, (hgoal _ (f2_refl _)).2, by rw [hlook]; rfl⟩
            · rw [if_neg hguard]
              have hf2 := (decreaseLevelC_data
                ({ s with nodes := A₀ ++ highPart s.nodes k } : VState α)).1
              exact ⟨(hgoal _ hf2).1, (hgoal _ hf2).2, by rw [hlook]; rfl⟩
          · -- the block stays
            have hstate : eraseOp s k =
                ({ s with nodes := s.nodes.set A₀.length (a.deleteElement (k - a.base)) },
                  true) := by
              unfold eraseOp
              rw [if_neg h0, findLeftIdx_eq_lastPos s k hs]
              simp only [hcov, hh, if_true, hemp]
              simp
            have hset : s.nodes.set A₀.length (a.deleteElement (k - a.base)) =
                A₀ ++ a.deleteElement (k - a.base) :: highPart s.nodes k := by
              conv_lhs => rw [hsplit]
              exact set_at_prefix_len A₀ a _ _
            rw [hstate]
            simp only [hset]
            have hbase' : (a.deleteElement (k - a.base)).base = a.base := by rw [hdel]
            refine ⟨⟨?_, ?_, ?_⟩, ?_, by rw [hlook]; rfl⟩
            · exact sorted_mid_subst A₀ a _ _ (hsplit ▸ hs) hbase'
            · refine noShadow_mid_subst A₀ a _ _ (hsplit ▸ hns) hbase' ?_
              intro i hi
              rw [hdel] at hi
              simp only at hi
              rw [testBit_setZero] at hi
              exact Or.inl ((Bool.and_eq_true _ _).mp hi).1
            · intro n hn
              rcases List.mem_append.mp hn with h | h
              · exact hok n (by rw [hsplit]; exact List.mem_append.mpr (Or.inl h))
              · rcases List.mem_cons.mp h with rfl | h
                · have hOKa : NodeOK a := hok a (by
                    rw [hsplit]; exact List.mem_append.mpr (Or.inr (List.mem_cons_self _ _)))
                  rw [hdel]
                  refine ⟨?_, hOKa.2.1, ?_⟩
                  · intro i hi
                    rw [testBit_setZero] at hi
                    exact hOKa.1 i ((Bool.and_eq_true _ _).mp hi).1
                  · intro hc
                    rw [hdel] at hemp
                    unfold Node.isEmpty at hemp
                    simp only at hemp
                    simp only at hc
                    rw [hc] at hemp
                    simp at hemp
                · exact hok n (by
                    rw [hsplit]; exact List.mem_append.mpr (Or.inr (List.mem_cons_of_mem _ h)))
            · intro j
              by_cases hj : j = k
              · rw [if_pos hj, hj]
                have h2 : absFind (A₀ ++ a.deleteElement (k - a.base) :: highPart s.nodes k)
                    k = some (a.deleteElement (k - a.base)) := by
                  rw [absFind_mid, hBfindk]
                  simp only
                  rw [if_pos (by rw [hbase']; exact hbase)]
                rw [absLookup_unfold inv _ k _ h2]
                rw [if_neg]
                rintro ⟨-, hc⟩
                rw [hdel] at hc
                rw [hasElement_setZero_self] at hc
                exact Bool.false_ne_true hc
              · rw [if_neg hj]
                rw [show absLookup inv s.nodes j =
                    absLookup inv (A₀ ++ a :: highPart s.nodes k) j from by rw [← hsplit]]
                cases hB : absFind (highPart s.nodes k) j with
                | some m =>
                  have h1 : absFind (A₀ ++ a.deleteElement (k - a.base) ::
                      highPart s.nodes k) j = some m := by
                    rw [absFind_mid, hB]
                  have h2 : absFind (A₀ ++ a :: highPart s.nodes k) j = some m := by
                    rw [absFind_mid, hB]
                  rw [absLookup_unfold inv _ j m h1, absLookup_unfold inv _ j m h2]
                | none =>
                  by_cases hab : a.base ≤ j
                  · have h1 : absFind (A₀ ++ a.deleteElement (k - a.base) ::
                        highPart s.nodes k) j = some (a.deleteElement (k - a.base)) := by
                      rw [absFind_mid, hB]
                      simp only
                      rw [if_pos (by rw [hbase']; exact hab)]
                    have h2 : absFind (A₀ ++ a :: highPart s.nodes k) j = some a := by
                      rw [absFind_mid, hB]
                      simp only
                      rw [if_pos hab]
                    rw [absLookup_unfold inv _ j _ h1, absLookup_unfold inv _ j a h2, hdel]
                    simp only
                    rw [hasElement_setZero_ne a _ _ (hjne j hab hj)]
                  · have h1 : absFind (A₀ ++ a.deleteElement (k - a.base) ::
                        highPart s.nodes k) j = absFind A₀ j := by
                      rw [absFind_mid, hB]
                      simp only
                      rw [if_neg (by rw [hbase']; exact hab)]
                    have h2 : absFind (A₀ ++ a :: highPart s.nodes k) j = absFind A₀ j := by
                      rw [absFind_mid, hB]
                      simp only
                      rw [if_neg hab]
                    rw [absLookup_congr_find inv _ A₀ j h1, absLookup_congr_find inv _ A₀ j h2]
        · -- slot not set: nothing happens
          have hstate : eraseOp s k = (s, false) := by
            unfold eraseOp
            rw [if_neg h0, findLeftIdx_eq_lastPos s k hs]
            simp only [hcov]
            simp [hh]
          have hlookk : absLookup inv s.nodes k = none := by
            rw [absLookup_unfold inv s.nodes k a hfind]
            exact if_neg (fun hc => hh hc.2)
          rw [hstate]
          refine ⟨⟨hs, hns, hok⟩, ?_, by rw [hlookk]; rfl⟩
          intro j
          by_cases hj : j = k
          · rw [if_pos hj, hj, hlookk]
          · rw [if_neg hj]
      · -- the offset is out of block range
        rw [if_neg hv] at hcov
        have hstate : eraseOp s k = (s, false) := by
          unfold eraseOp
          rw [if_neg h0, findLeftIdx_eq_lastPos s k hs]
          simp only [hcov]
        have hlookk : absLookup inv s.nodes k = none := by
          rw [absLookup_unfold inv s.nodes k a hfind]
          exact if_neg (fun hc => hv hc.1)
        rw [hstate]
        refine ⟨⟨hs, hns, hok⟩, ?_, by rw [hlookk]; rfl⟩
        intro j
        by_cases hj : j = k
        · rw [if_pos hj, hj, hlookk]
        · rw [if_neg hj]

end VSL

namespace VSL

variable {α : Type}

/-- The splice of `insertNode` in list form: up to levels, the new state's
block list is the sorted list with the fresh block in place. -/
theorem insertNodeOp_f2 (s : VState α) (k : Nat) (v : α) :
    List.Forall₂ EqData
      (lowPart s.nodes k ++ (⟨k, 0, 1, [v, v, v, v]⟩ : Node α) :: highPart s.nodes k)
      (insertNodeOp s (lastPos s.nodes k) k v).nodes ∧
    (∃ b, (insertNodeOp s (lastPos s.nodes k) k v).nodes.get? (lastPos s.nodes k) = some b ∧
      EqData (⟨k, 0, 1, [v, v, v, v]⟩ : Node α) b) := by
  unfold insertNodeOp getRandomLevelC
  dsimp only
  rw [newNode_eval]
  set nd : Node α :=
    ⟨k, if ctz64 (xnext s.rng).2 ≤ s.level then ctz64 (xnext s.rng).2 else s.level,
      1, [v, v, v, v]⟩ with hnd
  have hins := insertIdx_at_prefix_len (lowPart s.nodes k) nd (highPart s.nodes k)
  rw [low_append_high, ← lastPos_eq_low_length] at hins
  have hf2base : List.Forall₂ EqData
      (lowPart s.nodes k ++ (⟨k, 0, 1, [v, v, v, v]⟩ : Node α) :: highPart s.nodes k)
      (lowPart s.nodes k ++ nd :: highPart s.nodes k) :=
    f2_append (f2_refl _) (List.Forall₂.cons ⟨rfl, rfl, rfl⟩ (f2_refl _))
  have hget : (lowPart s.nodes k ++ nd :: highPart s.nodes k).get? (lastPos s.nodes k) =
      some nd := by
    rw [lastPos_eq_low_length]
    exact get?_at_prefix_len _ _ _
  by_cases hgrow : 2 ^ s.level < (s.nodes.insertIdx (lastPos s.nodes k) nd).length
  · rw [if_pos hgrow]
    rw [hins]
    have hstep := (increaseLevelC_data
      (⟨(xnext s.rng).1, lowPart s.nodes k ++ nd :: highPart s.nodes k, s.level⟩ : VState α)).1
    dsimp only at hstep
    refine ⟨f2_trans hf2base hstep, ?_⟩
    rcases f2_get? hstep (lastPos s.nodes k) with ⟨h1, h2⟩ | ⟨x, y, h1, h2, hxy⟩
    · rw [hget] at h1
      exact absurd h1 (by simp)
    · rw [hget] at h1
      injection h1 with h1
      subst h1
      exact ⟨y, h2, ⟨hxy.1, hxy.2.1, hxy.2.2⟩⟩
  · rw [if_neg hgrow]
    rw [hins]
    exact ⟨hf2base, nd, hget, ⟨rfl, rfl, rfl⟩⟩

/-- When the covering test fails, the block found on the left (if any) ends
at least `capacity_limit` below the key. -/
theorem covering_none_cases (s : VState α) (k : Nat) (hs : Sorted s.nodes)
    (hcov : coveringAt s.nodes (lastPos s.nodes k) k = none) :
    ∀ a ∈ (lowPart s.nodes k).getLast?, a.base + capacity_limit ≤ k := by
  intro a ha
  rcases List.eq_nil_or_concat (lowPart s.nodes k) with hnil | ⟨A₀, x, hcat⟩
  · rw [hnil] at ha; simp at ha
  · rw [List.concat_eq_append] at hcat
    rw [hcat, List.getLast?_concat] at ha
    simp only [Option.mem_def, Option.some.injEq] at ha
    obtain ⟨hsplit, hlen, hc⟩ := covering_low_concat s.nodes k A₀ x hcat
    rw [hc] at hcov
    by_cases hv : k - x.base < capacity_limit
    · rw [if_pos hv] at hcov; exact absurd hcov (by simp)
    · have hbase : x.base ≤ k := lowPart_le s.nodes k x (by rw [hcat]; simp)
      rw [← ha]
      omega

/-- When the covering test fails, the key is absent. -/
theorem nocov_lookup_none (inv : α) (s : VState α) (k : Nat) (hs : Sorted s.nodes)
    (hnc : ∀ a ∈ (lowPart s.nodes k).getLast?, a.base + capacity_limit ≤ k) :
    absLookup inv s.nodes k = none := by
  rcases List.eq_nil_or_concat (lowPart s.nodes k) with hnil | ⟨A₀, a, hcat⟩
  · exact absLookup_of_none inv s.nodes k (absFind_of_low_nil s.nodes k hs hnil)
  · rw [List.concat_eq_append] at hcat
    have hfind := absFind_of_low_concat s.nodes k hs A₀ a hcat
    rw [absLookup_unfold inv s.nodes k a hfind]
    have := hnc a (by rw [hcat, List.getLast?_concat]; rfl)
    rw [if_neg]
    rintro ⟨hlt, -⟩
    omega

end VSL

namespace VSL

variable {α : Type}

/-- Invariants and lookups of the block list with a freshly spliced block:
the new block holds exactly the key `k` with the head value of its buffer. -/
theorem canon_insert_facts (inv : α) (s : VState α) (k : Nat) (es : List α) (w : α)
    (hI : Inv s) (hnc : ∀ a ∈ (lowPart s.nodes k).getLast?, a.base + capacity_limit ≤ k)
    (hlen : es.length = 4) (hget : es.get? 0 = some w) :
    (Sorted (lowPart s.nodes k ++ (⟨k, 0, 1, es⟩ : Node α) :: highPart s.nodes k) ∧
     NoShadow (lowPart s.nodes k ++ (⟨k, 0, 1, es⟩ : Node α) :: highPart s.nodes k) ∧
     ∀ n ∈ lowPart s.nodes k ++ (⟨k, 0, 1, es⟩ : Node α) :: highPart s.nodes k, NodeOK n) ∧
    (∀ j, absLookup inv
        (lowPart s.nodes k ++ (⟨k, 0, 1, es⟩ : Node α) :: highPart s.nodes k) j =
      if j = k then some w else absLookup inv s.nodes j) := by
  obtain ⟨hs, hns, hok⟩ := hI
  have hsplit0 : s.nodes = lowPart s.nodes k ++ highPart s.nodes k :=
    (low_append_high s.nodes k).symm
  have hBgt : ∀ b ∈ highPart s.nodes k, k < b.base := highPart_gt s.nodes k hs
  have hlowlt : ∀ a ∈ lowPart s.nodes k, a.base < k := by
    intro a ha
    rcases List.eq_nil_or_concat (lowPart s.nodes k) with hnil | ⟨A₀, x, hcat⟩
    · rw [hnil] at ha; simp at ha
    · rw [List.concat_eq_append] at hcat
      have hxk : x.base + capacity_limit ≤ k :=
        hnc x (by rw [hcat, List.getLast?_concat]; rfl)
      rw [hcat] at ha
      rcases List.mem_append.mp ha with h | h
      · have hsort : Sorted (lowPart s.nodes k) := by
          rw [hsplit0, Sorted, List.pairwise_append] at hs
          exact hs.1
        rw [hcat, Sorted, List.pairwise_append] at hsort
        have := hsort.2.2 a h x (by simp)
        unfold capacity_limit at hxk
        omega
      · simp only [List.mem_singleton] at h
        subst h
        unfold capacity_limit at hxk
        omega
  have hnodeOK : NodeOK (⟨k, 0, 1, es⟩ : Node α) := by
    refine ⟨?_, ?_, by simp⟩
    · intro i hi
      simp only at hi ⊢
      rcases eq_or_ne i 0 with rfl | hne
      · omega
      · rw [Nat.testBit_two_pow_of_ne (by omega : 0 ≠ i)] at hi
        · exact absurd hi (by simp)
    · simp only
      rw [hlen]
      simp [capSet]
  have hbit : ∀ i, (1 : Nat).testBit i = true → i = 0 := by
    intro i hi
    by_contra hne
    rw [Nat.testBit_two_pow_of_ne (by omega : 0 ≠ i)] at hi
    exact absurd hi (by simp)
  refine ⟨⟨?_, ?_, ?_⟩, ?_⟩
  · -- sorted
    refine sorted_insert_mid _ _ _ (hsplit0 ▸ hs) hlowlt hBgt
  · -- no shadow
    refine noShadow_insert_mid _ _ _ (hsplit0 ▸ hns) ?_ ?_
    · intro p hp i hi
      have hple := hnc p ?_
      · have hOKp : NodeOK p := hok p (by
          rw [hsplit0]
          exact List.mem_append.mpr (Or.inl (by
            rcases List.eq_nil_or_concat (lowPart s.nodes k) with hnil | ⟨A₀, x, hcat⟩
            · rw [hnil] at hp; simp at hp
            · rw [List.concat_eq_append] at hcat
              rw [hcat, List.getLast?_concat] at hp
              simp only [Option.mem_def, Option.some.injEq] at hp
              rw [hcat, ← hp]
              simp)))
        have := nodeOK_bit_lt p hOKp i hi
        simp only
        unfold capacity_limit at hple
        omega
      · exact hp
    · intro q hq i hi
      simp only at hi ⊢
      have := hbit i hi
      subst this
      have := hBgt q (List.mem_of_mem_head? hq)
      omega
  · -- NodeOK everywhere
    intro n hn
    rcases List.mem_append.mp hn with h | h
    · exact hok n (by rw [hsplit0]; exact List.mem_append.mpr (Or.inl h))
    · rcases List.mem_cons.mp h with rfl | h
      · exact hnodeOK
      · exact hok n (by rw [hsplit0]; exact List.mem_append.mpr (Or.inr h))
  · -- lookups
    intro j
    by_cases hj : j = k
    · rw [if_pos hj, hj]
      have hBfindk : absFind (highPart s.nodes k) k = none := absFind_none _ _ hBgt
      have hfound : absFind
          (lowPart s.nodes k ++ (⟨k, 0, 1, es⟩ : Node α) :: highPart s.nodes k) k =
          some (⟨k, 0, 1, es⟩ : Node α) := by
        rw [absFind_mid, hBfindk]
        simp only
        rw [if_pos (Nat.le_refl k)]
      rw [absLookup_unfold inv _ k _ hfound]
      rw [if_pos ?side]
      case side =>
        constructor
        · simp only
          unfold capacity_limit
          omega
        · unfold Node.hasElement bitsGet
          simp only
          rw [Nat.sub_self]
          rw [hlen]
          simp
      · simp only
        rw [Nat.sub_self]
        rw [List.getD_eq_get?] ; rw [hget] ; rfl
    · rw [if_neg hj]
      cases hB : absFind (highPart s.nodes k) j with
      | some m =>
        have h1 : absFind
            (lowPart s.nodes k ++ (⟨k, 0, 1, es⟩ : Node α) :: highPart s.nodes k) j =
            some m := by
          rw [absFind_mid, hB]
        have h2 : absFind s.nodes j = some m := by
          rw [hsplit0, absFind_append, hB]
        rw [absLookup_unfold inv _ j m h1, absLookup_unfold inv _ j m h2]
      | none =>
        by_cases hkj : k ≤ j
        · have hjk : k < j := by omega
          have h1 : absFind
              (lowPart s.nodes k ++ (⟨k, 0, 1, es⟩ : Node α) :: highPart s.nodes k) j =
              some (⟨k, 0, 1, es⟩ : Node α) := by
            rw [absFind_mid, hB]
            simp only
            rw [if_pos hkj]
          rw [absLookup_unfold inv _ j _ h1]
          rw [if_neg ?newmiss]
          case newmiss =>
            rintro ⟨-, hc⟩
            unfold Node.hasElement bitsGet at hc
            simp only at hc
            have := hbit (j - k) ((Bool.and_eq_true _ _).mp hc).2
            omega
          -- the old list also misses j
          rcases List.eq_nil_or_concat (lowPart s.nodes k) with hnil | ⟨A₀, x, hcat⟩
          · have : absFind s.nodes j = none := by
              rw [hsplit0, hnil, List.nil_append]
              exact hB
            rw [absLookup_of_none inv s.nodes j this]
          · rw [List.concat_eq_append] at hcat
            have hxk : x.base + capacity_limit ≤ k :=
              hnc x (by rw [hcat, List.getLast?_concat]; rfl)
            have hall : ∀ y ∈ lowPart s.nodes k, y.base ≤ j := by
              intro y hy
              have := hlowlt y hy
              omega
            have h2 : absFind s.nodes j = some x := by
              rw [hsplit0, absFind_append, hB]
              simp only
              rw [absFind_all_le _ _ hall, hcat, List.getLast?_concat]
            rw [absLookup_unfold inv _ j x h2]
            rw [if_neg]
            rintro ⟨hc, -⟩
            unfold capacity_limit at hc hxk
            omega
        · have h1 : absFind
              (lowPart s.nodes k ++ (⟨k, 0, 1, es⟩ : Node α) :: highPart s.nodes k) j =
              absFind (lowPart s.nodes k) j := by
            rw [absFind_mid, hB]
            simp only
            rw [if_neg hkj]
          have h2 : absFind s.nodes j = absFind (lowPart s.nodes k) j := by
            have hBj : absFind (highPart s.nodes k) j = none := by
              refine absFind_none _ _ ?_
              intro b hb
              have := hBgt b hb
              omega
            conv_lhs => rw [hsplit0]
            rw [absFind_append, hBj]
          rw [absLookup_congr_find inv _ _ j h1, absLookup_congr_find inv _ _ j h2]

end VSL

namespace VSL

variable {α : Type}

theorem ne_zero_of_testBit (m i : Nat) (h : m.testBit i = true) : m ≠ 0 := by
  intro hc
  rw [hc, Nat.zero_testBit] at h
  exact Bool.false_ne_true h

theorem touchNode_hasEq (a : Node α) (off j : Nat) (inv : α) (hoff : off < capacity_limit)
    (hne : j ≠ off) (hOK : NodeOK a) :
    (touchNode a off inv).hasElement j = a.hasElement j ∧
    (a.hasElement j = true →
      (touchNode a off inv).elements.get? j = a.elements.get? j) := by
  constructor
  · unfold Node.hasElement bitsGet
    rw [touchNode_bit a off inv hoff j]
    cases hb : a.bitMap.testBit j with
    | false => simp [hne]
    | true =>
      have hj : j < a.elements.length := hOK.1 j hb
      have hj2 : j < (touchNode a off inv).elements.length :=
        lt_of_lt_of_le hj (touchNode_len_ge a off inv)
      simp [hne, hj, hj2]
  · intro hh
    exact touchNode_get_ne a off j inv hoff hne (hasElement_imp_lt a j hh)

theorem writeNode_hasEq (a : Node α) (off j : Nat) (v inv : α) (hoff : off < capacity_limit)
    (hne : j ≠ off) (hOK : NodeOK a) :
    (writeNode a off v inv).hasElement j = a.hasElement j ∧
    (a.hasElement j = true →
      (writeNode a off v inv).elements.get? j = a.elements.get? j) := by
  constructor
  · unfold Node.hasElement bitsGet
    rw [writeNode_bit a off v inv hoff j]
    cases hb : a.bitMap.testBit j with
    | false => simp [hne]
    | true =>
      have hj : j < a.elements.length := hOK.1 j hb
      have hj2 : j < (writeNode a off v inv).elements.length :=
        lt_of_lt_of_le hj (writeNode_len_ge a off v inv)
      simp [hne, hj, hj2]
  · intro hh
    exact writeNode_get_ne a off j v inv hoff hne (hasElement_imp_lt a j hh)

/-- Replacing the node in the middle of the list changes no lookup whose
offset into that node is untouched. -/
theorem absLookup_mid_ne (inv : α) (A₀ : List (Node α)) (a a' : Node α)
    (B : List (Node α)) (j : Nat) (hbase : a'.base = a.base)
    (hhasEq : a.base ≤ j → a'.hasElement (j - a.base) = a.hasElement (j - a.base))
    (hval : a.base ≤ j → a.hasElement (j - a.base) = true →
      a'.elements.get? (j - a.base) = a.elements.get? (j - a.base)) :
    absLookup inv (A₀ ++ a' :: B) j = absLookup inv (A₀ ++ a :: B) j := by
  cases hB : absFind B j with
  | some m =>
    have h1 : absFind (A₀ ++ a' :: B) j = some m := by rw [absFind_mid, hB]
    have h2 : absFind (A₀ ++ a :: B) j = some m := by rw [absFind_mid, hB]
    rw [absLookup_unfold inv _ j m h1, absLookup_unfold inv _ j m h2]
  | none =>
    by_cases hab : a.base ≤ j
    · have h1 : absFind (A₀ ++ a' :: B) j = some a' := by
        rw [absFind_mid, hB]
        simp only
        rw [if_pos (by rw [hbase]; exact hab)]
      have h2 : absFind (A₀ ++ a :: B) j = some a := by
        rw [absFind_mid, hB]
        simp only
        rw [if_pos hab]
      rw [absLookup_unfold inv _ j a' h1, absLookup_unfold inv _ j a h2, hbase, hhasEq hab]
      by_cases hcond : j - a.base < capacity_limit ∧ a.hasElement (j - a.base) = true
      · rw [if_pos hcond, if_pos hcond]
        rw [List.getD_eq_get?, List.getD_eq_get?, hval hab hcond.2]
      · rw [if_neg hcond, if_neg hcond]
    · have h1 : absFind (A₀ ++ a' :: B) j = absFind A₀ j := by
        rw [absFind_mid, hB]
        simp only
        rw [if_neg (by rw [hbase]; exact hab)]
      have h2 : absFind (A₀ ++ a :: B) j = absFind A₀ j := by
        rw [absFind_mid, hB]
        simp only
        rw [if_neg hab]
      rw [absLookup_congr_find inv _ _ j h1, absLookup_congr_find inv _ _ j h2]

end VSL

namespace VSL

variable {α : Type}

theorem absLookup_mid_at (inv : α) (A₀ : List (Node α)) (a' : Node α) (B : List (Node α))
    (k : Nat) (hbase : a'.base ≤ k) (hB : absFind B k = none)
    (hhit : a'.hasElement (k - a'.base) = true) (hlt : k - a'.base < capacity_limit) :
    absLookup inv (A₀ ++ a' :: B) k = some (a'.elements.getD (k - a'.base) inv) := by
  have h1 : absFind (A₀ ++ a' :: B) k = some a' := by
    rw [absFind_mid, hB]
    simp only
    rw [if_pos hbase]
  rw [absLookup_unfold inv _ k a' h1, if_pos ⟨hlt, hhit⟩]

theorem touchNode_hasElement_self (a : Node α) (off : Nat) (inv : α)
    (hoff : off < capacity_limit) : (touchNode a off inv).hasElement off = true := by
  unfold Node.hasElement bitsGet
  rw [touchNode_bit a off inv hoff off]
  have := touchNode_lt_len a off inv hoff
  simp [this]

theorem writeNode_hasElement_self (a : Node α) (off : Nat) (v inv : α)
    (hoff : off < capacity_limit) : (writeNode a off v inv).hasElement off = true := by
  unfold Node.hasElement bitsGet
  rw [writeNode_bit a off v inv hoff off]
  have := writeNode_lt_len a off v inv hoff
  simp [this]

theorem touchNode_nodeOK (a : Node α) (off : Nat) (inv : α) (hoff : off < capacity_limit)
    (hOK : NodeOK a) : NodeOK (touchNode a off inv) := by
  refine ⟨?_, touchNode_len_capSet a off inv hoff hOK.2.1, ?_⟩
  · intro i hi
    rw [touchNode_bit a off inv hoff i] at hi
    rcases (Bool.or_eq_true _ _).mp hi with h | h
    · exact lt_of_lt_of_le (hOK.1 i h) (touchNode_len_ge a off inv)
    · have heq : i = off := of_decide_eq_true h
      rw [heq]
      exact touchNode_lt_len a off inv hoff
  · refine ne_zero_of_testBit _ off ?_
    have := touchNode_hasElement_self a off inv hoff
    exact hasElement_imp_bit _ off this

theorem writeNode_nodeOK (a : Node α) (off : Nat) (v inv : α) (hoff : off < capacity_limit)
    (hOK : NodeOK a) : NodeOK (writeNode a off v inv) := by
  refine ⟨?_, writeNode_len_capSet a off v inv hoff hOK.2.1, ?_⟩
  · intro i hi
    rw [writeNode_bit a off v inv hoff i] at hi
    rcases (Bool.or_eq_true _ _).mp hi with h | h
    · exact lt_of_lt_of_le (hOK.1 i h) (writeNode_len_ge a off v inv)
    · have heq : i = off := of_decide_eq_true h
      rw [heq]
      exact writeNode_lt_len a off v inv hoff
  · refine ne_zero_of_testBit _ off ?_
    have := writeNode_hasElement_self a off v inv hoff
    exact hasElement_imp_bit _ off this

end VSL

namespace VSL

variable {α : Type}

/-- `operator[]` on a key with no covering block: splice-in path. -/
theorem touch_insert_case (inv : α) (s : VState α) (k : Nat) (hI : Inv s)
    (hcov : coveringAt s.nodes (lastPos s.nodes k) k = none) :
    Inv (touchOp inv s k).1 ∧
    (∀ j, absLookup inv (touchOp inv s k).1.nodes j =
      if j = k then some ((absLookup inv s.nodes k).getD inv)
      else absLookup inv s.nodes j) ∧
    (touchOp inv s k).2 = (absLookup inv s.nodes k).getD inv := by
  obtain ⟨hs, hns, hok⟩ := hI
  have hnc := covering_none_cases s k hs hcov
  have hlookk := nocov_lookup_none inv s k hs hnc
  obtain ⟨hf2, b, hbget, hbdata⟩ := insertNodeOp_f2 s k inv
  obtain ⟨⟨hso, hnsh, hokc⟩, hlkc⟩ :=
    canon_insert_facts inv s k [inv, inv, inv, inv] inv ⟨hs, hns, hok⟩ hnc rfl rfl
  have hstate : touchOp inv s k = (insertNodeOp s (lastPos s.nodes k) k inv,
      match (insertNodeOp s (lastPos s.nodes k) k inv).nodes.get? (lastPos s.nodes k) with
      | some n => n.elements.getD 0 inv
      | none => inv) := by
    unfold touchOp
    rw [findLeftIdx_eq_lastPos s k hs]
    simp only [hcov]
  rw [hstate]
  refine ⟨⟨sorted_data hf2 hso, noShadow_data hf2 hnsh, nodesOK_data hf2 hokc⟩, ?_, ?_⟩
  · intro j
    rw [← absLookup_data hf2 inv j, hlkc j, hlookk]
    by_cases hj : j = k
    · rw [if_pos hj, if_pos hj]
      rfl
    · rw [if_neg hj, if_neg hj]
  · simp only [hbget]
    rw [hlookk, ← hbdata.2.2]
    rfl

/-- `list[k] = v` on a key with no covering block: splice-in path. -/
theorem write_insert_case (inv v : α) (s : VState α) (k : Nat) (hI : Inv s)
    (hcov : coveringAt s.nodes (lastPos s.nodes k) k = none) :
    Inv (writeOp inv s k v) ∧
    (∀ j, absLookup inv (writeOp inv s k v).nodes j =
      if j = k then some v else absLookup inv s.nodes j) := by
  obtain ⟨hs, hns, hok⟩ := hI
  have hnc := covering_none_cases s k hs hcov
  obtain ⟨hf2, -⟩ := insertNodeOp_f2 s k inv
  have hf2' := f2_modify hf2 (fun n => { n with elements := n.elements.set 0 v })
      (fun x y hxy => ⟨hxy.1, hxy.2.1, by simp only; rw [hxy.2.2]⟩) (lastPos s.nodes k)
  have hcanonmod : (lowPart s.nodes k ++
        (⟨k, 0, 1, [inv, inv, inv, inv]⟩ : Node α) :: highPart s.nodes k).modify
        (fun n => { n with elements := n.elements.set 0 v }) (lastPos s.nodes k) =
      lowPart s.nodes k ++ (⟨k, 0, 1, [v, inv, inv, inv]⟩ : Node α) :: highPart s.nodes k := by
    rw [lastPos_eq_low_length, modify_at_prefix_len]
    rfl
  rw [hcanonmod] at hf2'
  obtain ⟨⟨hso, hnsh, hokc⟩, hlkc⟩ :=
    canon_insert_facts inv s k [v, inv, inv, inv] v ⟨hs, hns, hok⟩ hnc rfl rfl
  have hstate : writeOp inv s k v =
      { insertNodeOp s (lastPos s.nodes k) k inv with
        nodes := (insertNodeOp s (lastPos s.nodes k) k inv).nodes.modify
          (fun n => { n with elements := n.elements.set 0 v }) (lastPos s.nodes k) } := by
    unfold writeOp
    rw [findLeftIdx_eq_lastPos s k hs]
    simp only [hcov]
  rw [hstate]
  refine ⟨⟨sorted_data hf2' hso, noShadow_data hf2' hnsh, nodesOK_data hf2' hokc⟩, ?_⟩
  intro j
  rw [← absLookup_data hf2' inv j, hlkc j]

/-- Simulation of the bare access `list[k]`: it behaves as a write of the
current value (or of `invalid` when the key is absent). -/
theorem touch_sim (inv : α) (s : VState α) (k : Nat) (hI : Inv s) :
    Inv (touchOp inv s k).1 ∧
    (∀ j, absLookup inv (touchOp inv s k).1.nodes j =
      if j = k then some ((absLookup inv s.nodes k).getD inv)
      else absLookup inv s.nodes j) ∧
    (touchOp inv s k).2 = (absLookup inv s.nodes k).getD inv := by
  obtain ⟨hs, hns, hok⟩ := hI
  rcases List.eq_nil_or_concat (lowPart s.nodes k) with hnil | ⟨A₀, a, hcat⟩
  · exact touch_insert_case inv s k ⟨hs, hns, hok⟩ (covering_low_nil s.nodes k hnil)
  · rw [List.concat_eq_append] at hcat
    obtain ⟨hsplit, hlen, hcov⟩ := covering_low_concat s.nodes k A₀ a hcat
    have hfind := absFind_of_low_concat s.nodes k hs A₀ a hcat
    have hbase : a.base ≤ k := lowPart_le s.nodes k a (by rw [hcat]; simp)
    have hBfindk : absFind (highPart s.nodes k) k = none :=
      absFind_none _ _ (highPart_gt s.nodes k hs)
    have hOKa : NodeOK a := hok a (by
      rw [hsplit]
      exact List.mem_append.mpr (Or.inr (List.mem_cons_self _ _)))
    have hjne : ∀ j, a.base ≤ j → j ≠ k → j - a.base ≠ k - a.base := by
      intro j haj hj hc
      exact hj (by omega)
    by_cases hv : k - a.base < capacity_limit
    · rw [if_pos hv] at hcov
      by_cases hh : a.hasElement (k - a.base) = true
      · -- slot already present: no state change at all
        have htn : touchNode a (k - a.base) inv = a := by
          unfold touchNode
          rw [if_pos hh]
        have hget : s.nodes.get? A₀.length = some a := by
          rw [hsplit]
          exact get?_at_prefix_len _ _ _
        have hlook : absLookup inv s.nodes k = some (a.elements.getD (k - a.base) inv) := by
          rw [absLookup_unfold inv s.nodes k a hfind, if_pos ⟨hv, hh⟩]
        have hstate : touchOp inv s k = (s, a.elements.getD (k - a.base) inv) := by
          unfold touchOp
          rw [findLeftIdx_eq_lastPos s k hs]
          simp only [hcov]
          rw [htn, set_same s.nodes A₀.length a hget]
        rw [hstate]
        refine ⟨⟨hs, hns, hok⟩, ?_, by rw [hlook]; rfl⟩
        intro j
        by_cases hj : j = k
        · rw [if_pos hj, hj, hlook]
          rfl
        · rw [if_neg hj]
      · -- slot materialised with the invalid value
        have hlookk : absLookup inv s.nodes k = none := by
          rw [absLookup_unfold inv s.nodes k a hfind]
          exact if_neg (fun hc => hh hc.2)
        have hbase' : (touchNode a (k - a.base) inv).base = a.base := touchNode_base a _ inv
        have hstate : touchOp inv s k =
            ({ s with nodes := s.nodes.set A₀.length (touchNode a (k - a.base) inv) },
              (touchNode a (k - a.base) inv).elements.getD (k - a.base) inv) := by
          unfold touchOp
          rw [findLeftIdx_eq_lastPos s k hs]
          simp only [hcov]
        have hset : s.nodes.set A₀.length (touchNode a (k - a.base) inv) =
            A₀ ++ touchNode a (k - a.base) inv :: highPart s.nodes k := by
          conv_lhs => rw [hsplit]
          exact set_at_prefix_len _ _ _ _
        have hretval : (touchNode a (k - a.base) inv).elements.get? (k - a.base) =
            some inv := by
          rw [touchNode_get_self a _ inv hv, if_neg hh]
        rw [hstate]
        dsimp only
        rw [hset]
        refine ⟨⟨?_, ?_, ?_⟩, ?_, ?_⟩
        · exact sorted_mid_subst A₀ a _ _ (hsplit ▸ hs) hbase'
        · refine noShadow_mid_subst A₀ a _ _ (hsplit ▸ hns) hbase' ?_
          intro i hi
          rw [touchNode_bit a _ inv hv i] at hi
          rcases (Bool.or_eq_true _ _).mp hi with h | h
          · exact Or.inl h
          · right
            intro bnode hb
            have heq : i = k - a.base := of_decide_eq_true h
            have hbgt := highPart_gt s.nodes k hs bnode (List.mem_of_mem_head? hb)
            rw [heq, hbase']
            omega
        · intro n hn
          rcases List.mem_append.mp hn with h | h
          · exact hok n (by rw [hsplit]; exact List.mem_append.mpr (Or.inl h))
          · rcases List.mem_cons.mp h with rfl | h
            · exact touchNode_nodeOK a _ inv hv hOKa
            · exact hok n (by
                rw [hsplit]
                exact List.mem_append.mpr (Or.inr (List.mem_cons_of_mem _ h)))
        · intro j
          by_cases hj : j = k
          · rw [if_pos hj, hj, hlookk]
            rw [absLookup_mid_at inv A₀ _ _ k (by rw [hbase']; exact hbase) hBfindk
              (by rw [hbase']; exact touchNode_hasElement_self a _ inv hv)
              (by rw [hbase']; exact hv)]
            rw [hbase', List.getD_eq_get?, hretval]
            rfl
          · rw [if_neg hj]
            conv_rhs => rw [hsplit]
            refine absLookup_mid_ne inv A₀ a _ _ j hbase' ?_ ?_
            · intro hab
              exact (touchNode_hasEq a _ _ inv hv (hjne j hab hj) hOKa).1
            · intro hab hpres
              exact (touchNode_hasEq a _ _ inv hv (hjne j hab hj) hOKa).2 hpres
        · rw [List.getD_eq_get?, hretval, hlookk]
          rfl
    · rw [if_neg hv] at hcov
      exact touch_insert_case inv s k ⟨hs, hns, hok⟩ hcov

/-- Simulation of the indexed write `list[k] = v` against the reference
map: the invariant is preserved and the key is bound to `v`. -/
theorem write_sim (inv v : α) (s : VState α) (k : Nat) (hI : Inv s) :
    Inv (writeOp inv s k v) ∧
    (∀ j, absLookup inv (writeOp inv s k v).nodes j =
      if j = k then some v else absLookup inv s.nodes j) := by
  obtain ⟨hs, hns, hok⟩ := hI
  rcases List.eq_nil_or_concat (lowPart s.nodes k) with hnil | ⟨A₀, a, hcat⟩
  · exact write_insert_case inv v s k ⟨hs, hns, hok⟩ (covering_low_nil s.nodes k hnil)
  · rw [List.concat_eq_append] at hcat
    obtain ⟨hsplit, hlen, hcov⟩ := covering_low_concat s.nodes k A₀ a hcat
    have hbase : a.base ≤ k := lowPart_le s.nodes k a (by rw [hcat]; simp)
    have hBfindk : absFind (highPart s.nodes k) k = none :=
      absFind_none _ _ (highPart_gt s.nodes k hs)
    have hOKa : NodeOK a := hok a (by
      rw [hsplit]
      exact List.mem_append.mpr (Or.inr (List.mem_cons_self _ _)))
    have hjne : ∀ j, a.base ≤ j → j ≠ k → j - a.base ≠ k - a.base := by
      intro j haj hj hc
      exact hj (by omega)
    by_cases hv : k - a.base < capacity_limit
    · rw [if_pos hv] at hcov
      have hbase' : (writeNode a (k - a.base) v inv).base = a.base := writeNode_base a _ v inv
      have hstate : writeOp inv s k v =
          { s with nodes := s.nodes.set A₀.length (writeNode a (k - a.base) v inv) } := by
        unfold writeOp
        rw [findLeftIdx_eq_lastPos s k hs]
        simp only [hcov]
      have hset : s.nodes.set A₀.length (writeNode a (k - a.base) v inv) =
          A₀ ++ writeNode a (k - a.base) v inv :: highPart s.nodes k := by
        conv_lhs => rw [hsplit]
        exact set_at_prefix_len _ _ _ _
      rw [hstate]
      dsimp only
      rw [hset]
      refine ⟨⟨?_, ?_, ?_⟩, ?_⟩
      · exact sorted_mid_subst A₀ a _ _ (hsplit ▸ hs) hbase'
      · refine noShadow_mid_subst A₀ a _ _ (hsplit ▸ hns) hbase' ?_
        intro i hi
        rw [writeNode_bit a _ v inv hv i] at hi
        rcases (Bool.or_eq_true _ _).mp hi with h | h
        · exact Or.inl h
        · right
          intro bnode hb
          have heq : i = k - a.base := of_decide_eq_true h
          have hbgt := highPart_gt s.nodes k hs bnode (List.mem_of_mem_head? hb)
          rw [heq, hbase']
          omega
      · intro n hn
        rcases List.mem_append.mp hn with h | h
        · exact hok n (by rw [hsplit]; exact List.mem_append.mpr (Or.inl h))
        · rcases List.mem_cons.mp h with rfl | h
          · exact writeNode_nodeOK a _ v inv hv hOKa
          · exact hok n (by
              rw [hsplit]
              exact List.mem_append.mpr (Or.inr (List.mem_cons_of_mem _ h)))
      · intro j
        by_cases hj : j = k
        · rw [if_pos hj, hj]
          rw [absLookup_mid_at inv A₀ _ _ k (by rw [hbase']; exact hbase) hBfindk
            (by rw [hbase']; exact writeNode_hasElement_self a _ v inv hv)
            (by rw [hbase']; exact hv)]
          rw [hbase', List.getD_eq_get?, writeNode_get_self a _ v inv hv]
          rfl
        · rw [if_neg hj]
          conv_rhs => rw [hsplit]
          refine absLookup_mid_ne inv A₀ a _ _ j hbase' ?_ ?_
          · intro hab
            exact (writeNode_hasEq a _ _ v inv hv (hjne j hab hj) hOKa).1
          · intro hab hpres
            exact (writeNode_hasEq a _ _ v inv hv (hjne j hab hj) hOKa).2 hpres
    · rw [if_neg hv] at hcov
      exact write_insert_case inv v s k ⟨hs, hns, hok⟩ hcov

end VSL

namespace VSL

variable {α : Type}

/-! ### The reference map -/

/-- Client operations of the reference history of claim C1: indexed writes
and erases only. -/
inductive WOp (α : Type) where
  | write (k : Nat) (v : α)
  | erase (k : Nat)

/-- Embedding of the reference operations into the container operations. -/
def wopToM : WOp α → MOp α
  | .write k v => .write k v
  | .erase k => .erase k

/-- One step of the reference ordered map (as a lookup function): a write
binds the key — also when the value is the `invalid` marker, which is the
semantics the code chooses — and an erase removes it. -/
def refApply (m : Nat → Option α) : WOp α → Nat → Option α
  | .write k v => fun j => if j = k then some v else m j
  | .erase k => fun j => if j = k then none else m j

/-- The reference map of an operation history. -/
def refRun (ops : List (WOp α)) : Nat → Option α :=
  ops.foldl refApply (fun _ => none)

/-- Reference step for all three container operations; a bare access
`list[k]` binds `k` to its current value, or to `invalid` if absent. -/
def refApplyM (inv : α) (m : Nat → Option α) : MOp α → Nat → Option α
  | .write k v => fun j => if j = k then some v else m j
  | .touch k => fun j => if j = k then some ((m k).getD inv) else m j
  | .erase k => fun j => if j = k then none else m j

theorem inv_init (seed : Nat) : Inv (initState seed : VState α) :=
  ⟨List.Pairwise.nil, List.chain'_nil, fun n hn => absurd hn (List.not_mem_nil n)⟩

theorem absLookup_init (inv : α) (seed : Nat) (j : Nat) :
    absLookup inv (initState seed : VState α).nodes j = none := rfl

/-- Main induction: the container simulates the reference map over any
operation sequence. -/
theorem run_sim (inv : α) (ops : List (MOp α)) :
    ∀ (s : VState α) (m : Nat → Option α), Inv s → (∀ j, absLookup inv s.nodes j = m j) →
      Inv (ops.foldl (applyM inv) s) ∧
      (∀ j, absLookup inv (ops.foldl (applyM inv) s).nodes j =
        ops.foldl (refApplyM inv) m j) := by
  induction ops with
  | nil => intro s m hI hm; exact ⟨hI, hm⟩
  | cons op ops ih =>
    intro s m hI hm
    rw [List.foldl_cons, List.foldl_cons]
    cases op with
    | write k v =>
      obtain ⟨hI', hm'⟩ := write_sim inv v s k hI
      refine ih _ _ hI' ?_
      intro j
      rw [show applyM inv s (MOp.write k v) = writeOp inv s k v from rfl, hm' j]
      unfold refApplyM
      rw [hm j]
    | touch k =>
      obtain ⟨hI', hm', -⟩ := touch_sim inv s k hI
      refine ih _ _ hI' ?_
      intro j
      rw [show applyM inv s (MOp.touch k) = (touchOp inv s k).1 from rfl, hm' j]
      unfold refApplyM
      rw [hm j, hm k]
    | erase k =>
      obtain ⟨hI', hm', -⟩ := erase_sim inv s k hI
      refine ih _ _ hI' ?_
      intro j
      rw [show applyM inv s (MOp.erase k) = (eraseOp s k).1 from rfl, hm' j]
      unfold refApplyM
      rw [hm j]

/-- Every reachable state satisfies the structural invariant. -/
theorem reachable_inv (inv : α) (s : VState α) (h : Reachable inv s) : Inv s := by
  obtain ⟨seed, ops, rfl⟩ := h
  exact (run_sim inv ops (initState seed) (fun _ => none) (inv_init seed)
    (absLookup_init inv seed)).1

/-- The lookup view of a reachable state is the folded reference map. -/
theorem runM_lookup (inv : α) (seed : Nat) (ops : List (MOp α)) :
    ∀ j, absLookup inv (runM inv seed ops).nodes j =
      ops.foldl (refApplyM inv) (fun _ => none) j :=
  (run_sim inv ops (initState seed) (fun _ => none) (inv_init seed)
    (absLookup_init inv seed)).2

theorem refApply_map (inv : α) (ops : List (WOp α)) :
    ∀ m : Nat → Option α,
      (ops.map wopToM).foldl (refApplyM inv) m = ops.foldl refApply m := by
  induction ops with
  | nil => intro m; rfl
  | cons op ops ih =>
    intro m
    rw [List.map_cons, List.foldl_cons, List.foldl_cons, ih]
    cases op <;> rfl

end VSL

namespace VSL

variable {α : Type}

theorem f2_mem_left {ns ms : List (Node α)} (h : List.Forall₂ EqData ns ms) :
    ∀ a ∈ ns, ∃ b ∈ ms, EqData a b := by
  induction h with
  | nil => intro a ha; simp at ha
  | cons hd tl ih =>
    intro a ha
    rcases List.mem_cons.mp ha with rfl | ha
    · exact ⟨_, List.mem_cons_self _ _, hd⟩
    · obtain ⟨b, hb, hab⟩ := ih a ha
      exact ⟨b, List.mem_cons_of_mem _ hb, hab⟩

/-- A key not covered by any block is not covered by the found block. -/
theorem no_cover_bridge (s : VState α) (k : Nat) (hs : Sorted s.nodes)
    (h : ∀ n ∈ s.nodes, ¬(n.base ≤ k ∧ k - n.base < capacity_limit)) :
    coveringAt s.nodes (lastPos s.nodes k) k = none := by
  rcases List.eq_nil_or_concat (lowPart s.nodes k) with hnil | ⟨A₀, a, hcat⟩
  · exact covering_low_nil s.nodes k hnil
  · rw [List.concat_eq_append] at hcat
    obtain ⟨hsplit, hlen, hcov⟩ := covering_low_concat s.nodes k A₀ a hcat
    rw [hcov]
    have hbase : a.base ≤ k := lowPart_le s.nodes k a (by rw [hcat]; simp)
    have hmem : a ∈ s.nodes := by
      rw [hsplit]
      exact List.mem_append.mpr (Or.inr (List.mem_cons_self _ _))
    rw [if_neg (fun hc => h a hmem ⟨hbase, hc⟩)]

/-- With no covering block, `operator[]` takes the splice branch. -/
theorem touchOp_nocov_state (inv : α) (s : VState α) (k : Nat) (hs : Sorted s.nodes)
    (hcov : coveringAt s.nodes (lastPos s.nodes k) k = none) :
    (touchOp inv s k).1 = insertNodeOp s (lastPos s.nodes k) k inv := by
  unfold touchOp
  rw [findLeftIdx_eq_lastPos s k hs]
  simp only [hcov]

/-- The first block of the previous top chain is always promoted: when no
promotion has happened yet, the `|| !promoted` disjunct forces it. -/
theorem promoteWalk_first (oldL : Nat) :
    ∀ (ns : List (Node α)) (rng : Nat), (∃ n ∈ ns, oldL ≤ n.level) →
      ∃ n ∈ (promoteWalk oldL rng false ns).2, oldL + 1 ≤ n.level := by
  intro ns
  induction ns with
  | nil => intro rng h; simp at h
  | cons n rest ih =>
    intro rng h
    unfold promoteWalk
    by_cases hc : oldL ≤ n.level
    · rw [if_pos hc]
      refine ⟨{ n with level := n.level + 1 }, ?_, by simp; omega⟩
      simp only [Bool.not_false, Bool.or_true]
      exact List.mem_cons_self _ _
    · rw [if_neg hc]
      obtain ⟨m, hm, hml⟩ := h
      rcases List.mem_cons.mp hm with rfl | hm
      · exact absurd hml hc
      · obtain ⟨m', hm', hml'⟩ := ih rng ⟨m, hm, hml⟩
        exact ⟨m', List.mem_cons_of_mem _ hm', hml'⟩

/-- Modelled from the spec: the spec's formula for the level of a fresh
block, `min(ctz(rng.next()) & (MAX_LEVELS - 1), height)` with
`MAX_LEVELS = 32` — no such mask exists in `vsl.hpp`. -/
def specRandomLevel (r h : Nat) : Nat := min (ctz64 r &&& 31) h

/-! ### Observable behaviour for the determinism claim -/

/-- Public calls observed in claim C9: writes and bare accesses through
`operator[]`, `erase`, `has`, and the read through the const overload. -/
inductive QOp (α : Type) where
  | write (k : Nat) (v : α)
  | touch (k : Nat)
  | erase (k : Nat)
  | hasQ (k : Nat)
  | readQ (k : Nat)

/-- Observation returned by one call. -/
inductive Obs (α : Type) where
  | val (a : α)
  | flag (b : Bool)
deriving DecidableEq

/-- One public call: next state and observation. -/
def qstep (inv : α) (s : VState α) : QOp α → VState α × Obs α
  | .write k v => (writeOp inv s k v, .val v)
  | .touch k => ((touchOp inv s k).1, .val (touchOp inv s k).2)
  | .erase k => ((eraseOp s k).1, .flag (eraseOp s k).2)
  | .hasQ k => (s, .flag (hasOp s k))
  | .readQ k => (s, .val (getOp inv s k))

/-- Trace of observations, each paired with `getLevel` taken right after
the call. -/
def qrun (inv : α) : VState α → List (QOp α) → List (Obs α × Nat)
  | _, [] => []
  | s, op :: ops =>
    ((qstep inv s op).2, (qstep inv s op).1.level) :: qrun inv (qstep inv s op).1 ops

end VSL

namespace VSL

variable {α : Type}

/-! ### Capacity monotonicity (claim C8) -/

/-- Every block of the new list either descends from a block of the old
list with the same base and no smaller element capacity, or its base is
fresh. -/
def CapMap (old new : List (Node α)) : Prop :=
  ∀ n' ∈ new, (∃ n₀ ∈ old, n₀.base = n'.base ∧ n₀.elements.length ≤ n'.elements.length)
    ∨ (∀ n ∈ old, n.base ≠ n'.base)

theorem capMap_refl (ns : List (Node α)) : CapMap ns ns :=
  fun n' hn' => Or.inl ⟨n', hn', rfl, Nat.le_refl _⟩

theorem capMap_f2 {old mid new : List (Node α)} (h : CapMap old mid)
    (hf : List.Forall₂ EqData mid new) : CapMap old new := by
  intro n' hn'
  obtain ⟨m, hm, hmd⟩ := f2_mem_right hf n' hn'
  rcases h m hm with ⟨n₀, h0, hb, hc⟩ | hfresh
  · exact Or.inl ⟨n₀, h0, by rw [hb, hmd.1], by rw [← hmd.2.2]; exact hc⟩
  · refine Or.inr ?_
    intro n hn
    rw [← hmd.1]
    exact hfresh n hn

theorem sorted_base_inj (ns : List (Node α)) (hs : Sorted ns) :
    ∀ n ∈ ns, ∀ n' ∈ ns, n.base = n'.base → n = n' := by
  induction ns with
  | nil => intro n hn; simp at hn
  | cons m rest ih =>
    rw [Sorted, List.pairwise_cons] at hs
    intro n hn n' hn' hb
    rcases List.mem_cons.mp hn with h1 | h1 <;> rcases List.mem_cons.mp hn' with h2 | h2
    · rw [h1, h2]
    · exfalso; have := hs.1 n' h2; rw [h1] at hb; omega
    · exfalso; have := hs.1 n h1; rw [h2] at hb; omega
    · exact ih hs.2 n h1 n' h2 hb

theorem capMap_mono {old new : List (Node α)} (hs : Sorted old) (h : CapMap old new) :
    ∀ n ∈ old, ∀ n' ∈ new, n.base = n'.base →
      n.elements.length ≤ n'.elements.length := by
  intro n hn n' hn' hb
  rcases h n' hn' with ⟨n₀, h0, hb0, hc⟩ | hfresh
  · have : n = n₀ := sorted_base_inj old hs n hn n₀ h0 (by omega)
    rw [this]
    exact hc
  · exact absurd hb (hfresh n hn)

theorem low_lt_of_nc (s : VState α) (k : Nat) (hs : Sorted s.nodes)
    (hnc : ∀ a ∈ (lowPart s.nodes k).getLast?, a.base + capacity_limit ≤ k) :
    ∀ a ∈ lowPart s.nodes k, a.base < k := by
  intro a ha
  rcases List.eq_nil_or_concat (lowPart s.nodes k) with hnil | ⟨A₀, x, hcat⟩
  · rw [hnil] at ha; simp at ha
  · rw [List.concat_eq_append] at hcat
    have hxk : x.base + capacity_limit ≤ k :=
      hnc x (by rw [hcat, List.getLast?_concat]; rfl)
    rw [hcat] at ha
    rcases List.mem_append.mp ha with h | h
    · have hsort : Sorted (lowPart s.nodes k) := by
        have h2 := hs
        conv at h2 => rw [show s.nodes = lowPart s.nodes k ++ highPart s.nodes k from
          (low_append_high s.nodes k).symm]
        rw [Sorted, List.pairwise_append] at h2
        exact h2.1
      rw [hcat, Sorted, List.pairwise_append] at hsort
      have := hsort.2.2 a h x (by simp)
      unfold capacity_limit at hxk
      omega
    · simp only [List.mem_singleton] at h
      subst h
      unfold capacity_limit at hxk
      omega

/-- The fresh-splice case of the capacity map. -/
theorem capMap_insert (inv : α) (s : VState α) (k : Nat) (hI : Inv s)
    (hnc : ∀ a ∈ (lowPart s.nodes k).getLast?, a.base + capacity_limit ≤ k)
    (es : List α) :
    CapMap s.nodes
      (lowPart s.nodes k ++ (⟨k, 0, 1, es⟩ : Node α) :: highPart s.nodes k) := by
  obtain ⟨hs, -, -⟩ := hI
  intro n' hn'
  rcases List.mem_append.mp hn' with h | h
  · refine Or.inl ⟨n', ?_, rfl, Nat.le_refl _⟩
    conv_lhs => rw [show s.nodes = lowPart s.nodes k ++ highPart s.nodes k from
      (low_append_high s.nodes k).symm]
    exact List.mem_append.mpr (Or.inl h)
  · rcases List.mem_cons.mp h with rfl | h
    · refine Or.inr ?_
      intro n hn
      simp only
      conv at hn => rw [show s.nodes = lowPart s.nodes k ++ highPart s.nodes k from
        (low_append_high s.nodes k).symm]
      rcases List.mem_append.mp hn with h | h
      · have := low_lt_of_nc s k hs hnc n h
        omega
      · have := highPart_gt s.nodes k hs n h
        omega
    · refine Or.inl ⟨n', ?_, rfl, Nat.le_refl _⟩
      conv_lhs => rw [show s.nodes = lowPart s.nodes k ++ highPart s.nodes k from
        (low_append_high s.nodes k).symm]
      exact List.mem_append.mpr (Or.inr h)

/-- The in-place-update case of the capacity map. -/
theorem capMap_mid (s : VState α) (k : Nat) (A₀ : List (Node α)) (a a' : Node α)
    (B : List (Node α)) (hsplit : s.nodes = A₀ ++ a :: B) (hbase : a'.base = a.base)
    (hcap : a.elements.length ≤ a'.elements.length) :
    CapMap s.nodes (A₀ ++ a' :: B) := by
  intro n' hn'
  rcases List.mem_append.mp hn' with h | h
  · exact Or.inl ⟨n', by rw [hsplit]; exact List.mem_append.mpr (Or.inl h), rfl, Nat.le_refl _⟩
  · rcases List.mem_cons.mp h with rfl | h
    · exact Or.inl ⟨a, by
        rw [hsplit]; exact List.mem_append.mpr (Or.inr (List.mem_cons_self _ _)),
        hbase.symm, hcap⟩
    · exact Or.inl ⟨n', by
        rw [hsplit]; exact List.mem_append.mpr (Or.inr (List.mem_cons_of_mem _ h)),
        rfl, Nat.le_refl _⟩

/-- The unlink case of the capacity map. -/
theorem capMap_drop (s : VState α) (A₀ : List (Node α)) (a : Node α)
    (B : List (Node α)) (hsplit : s.nodes = A₀ ++ a :: B) :
    CapMap s.nodes (A₀ ++ B) := by
  intro n' hn'
  rcases List.mem_append.mp hn' with h | h
  · exact Or.inl ⟨n', by rw [hsplit]; exact List.mem_append.mpr (Or.inl h), rfl, Nat.le_refl _⟩
  · exact Or.inl ⟨n', by
      rw [hsplit]; exact List.mem_append.mpr (Or.inr (List.mem_cons_of_mem _ h)),
      rfl, Nat.le_refl _⟩

end VSL

namespace VSL

variable {α : Type}

/-- No public operation ever shrinks a block's element buffer. -/
theorem capMap_apply (inv : α) (s : VState α) (op : MOp α) (hI : Inv s) :
    CapMap s.nodes (applyM inv s op).nodes := by
  obtain ⟨hs, hns, hok⟩ := hI
  cases op with
  | write k v =>
    show CapMap s.nodes (writeOp inv s k v).nodes
    rcases List.eq_nil_or_concat (lowPart s.nodes k) with hnil | ⟨A₀, a, hcat⟩
    · have hcov := covering_low_nil s.nodes k hnil
      have hnc := covering_none_cases s k hs hcov
      obtain ⟨hf2, -⟩ := insertNodeOp_f2 s k inv
      have hf2' := f2_modify hf2 (fun n => { n with elements := n.elements.set 0 v })
          (fun x y hxy => ⟨hxy.1, hxy.2.1, by simp only; rw [hxy.2.2]⟩) (lastPos s.nodes k)
      have hcanonmod : (lowPart s.nodes k ++
            (⟨k, 0, 1, [inv, inv, inv, inv]⟩ : Node α) :: highPart s.nodes k).modify
            (fun n => { n with elements := n.elements.set 0 v }) (lastPos s.nodes k) =
          lowPart s.nodes k ++
            (⟨k, 0, 1, [v, inv, inv, inv]⟩ : Node α) :: highPart s.nodes k := by
        rw [lastPos_eq_low_length, modify_at_prefix_len]
        rfl
      rw [hcanonmod] at hf2'
      have hstate : writeOp inv s k v =
          { insertNodeOp s (lastPos s.nodes k) k inv with
            nodes := (insertNodeOp s (lastPos s.nodes k) k inv).nodes.modify
              (fun n => { n with elements := n.elements.set 0 v }) (lastPos s.nodes k) } := by
        unfold writeOp
        rw [findLeftIdx_eq_lastPos s k hs]
        simp only [hcov]
      rw [hstate]
      exact capMap_f2 (capMap_insert inv s k ⟨hs, hns, hok⟩ hnc _) hf2'
    · rw [List.concat_eq_append] at hcat
      obtain ⟨hsplit, hlen, hcov⟩ := covering_low_concat s.nodes k A₀ a hcat
      by_cases hv : k - a.base < capacity_limit
      · rw [if_pos hv] at hcov
        have hstate : writeOp inv s k v =
            { s with nodes := s.nodes.set A₀.length (writeNode a (k - a.base) v inv) } := by
          unfold writeOp
          rw [findLeftIdx_eq_lastPos s k hs]
          simp only [hcov]
        have hset : s.nodes.set A₀.length (writeNode a (k - a.base) v inv) =
            A₀ ++ writeNode a (k - a.base) v inv :: highPart s.nodes k := by
          conv_lhs => rw [hsplit]
          exact set_at_prefix_len _ _ _ _
        rw [hstate]
        dsimp only
        rw [hset]
        exact capMap_mid s k A₀ a _ _ hsplit (writeNode_base a _ v inv)
          (writeNode_len_ge a _ v inv)
      · rw [if_neg hv] at hcov
        have hnc := covering_none_cases s k hs hcov
        obtain ⟨hf2, -⟩ := insertNodeOp_f2 s k inv
        have hf2' := f2_modify hf2 (fun n => { n with elements := n.elements.set 0 v })
            (fun x y hxy => ⟨hxy.1, hxy.2.1, by simp only; rw [hxy.2.2]⟩) (lastPos s.nodes k)
        have hcanonmod : (lowPart s.nodes k ++
              (⟨k, 0, 1, [inv, inv, inv, inv]⟩ : Node α) :: highPart s.nodes k).modify
              (fun n => { n with elements := n.elements.set 0 v }) (lastPos s.nodes k) =
            lowPart s.nodes k ++
              (⟨k, 0, 1, [v, inv, inv, inv]⟩ : Node α) :: highPart s.nodes k := by
          rw [lastPos_eq_low_length, modify_at_prefix_len]
          rfl
        rw [hcanonmod] at hf2'
        have hstate : writeOp inv s k v =
            { insertNodeOp s (lastPos s.nodes k) k inv with
              nodes := (insertNodeOp s (lastPos s.nodes k) k inv).nodes.modify
                (fun n => { n with elements := n.elements.set 0 v }) (lastPos s.nodes k) } := by
          unfold writeOp
          rw [findLeftIdx_eq_lastPos s k hs]
          simp only [hcov]
        rw [hstate]
        exact capMap_f2 (capMap_insert inv s k ⟨hs, hns, hok⟩ hnc _) hf2'
  | touch k =>
    show CapMap s.nodes (touchOp inv s k).1.nodes
    rcases List.eq_nil_or_concat (lowPart s.nodes k) with hnil | ⟨A₀, a, hcat⟩
    · have hcov := covering_low_nil s.nodes k hnil
      have hnc := covering_none_cases s k hs hcov
      obtain ⟨hf2, -⟩ := insertNodeOp_f2 s k inv
      rw [touchOp_nocov_state inv s k hs hcov]
      exact capMap_f2 (capMap_insert inv s k ⟨hs, hns, hok⟩ hnc _) hf2
    · rw [List.concat_eq_append] at hcat
      obtain ⟨hsplit, hlen, hcov⟩ := covering_low_concat s.nodes k A₀ a hcat
      by_cases hv : k - a.base < capacity_limit
      · rw [if_pos hv] at hcov
        have hstate : (touchOp inv s k).1 =
            { s with nodes := s.nodes.set A₀.length (touchNode a (k - a.base) inv) } := by
          unfold touchOp
          rw [findLeftIdx_eq_lastPos s k hs]
          simp only [hcov]
        have hset : s.nodes.set A₀.length (touchNode a (k - a.base) inv) =
            A₀ ++ touchNode a (k - a.base) inv :: highPart s.nodes k := by
          conv_lhs => rw [hsplit]
          exact set_at_prefix_len _ _ _ _
        rw [hstate]
        dsimp only
        rw [hset]
        exact capMap_mid s k A₀ a _ _ hsplit (touchNode_base a _ inv)
          (touchNode_len_ge a _ inv)
      · rw [if_neg hv] at hcov
        have hnc := covering_none_cases s k hs hcov
        obtain ⟨hf2, -⟩ := insertNodeOp_f2 s k inv
        rw [touchOp_nocov_state inv s k hs hcov]
        exact capMap_f2 (capMap_insert inv s k ⟨hs, hns, hok⟩ hnc _) hf2
  | erase k =>
    show CapMap s.nodes (eraseOp s k).1.nodes
    by_cases h0 : s.nodes.length = 0
    · have hstate : eraseOp s k = (s, false) := by
        unfold eraseOp
        rw [if_pos h0]
      rw [hstate]
      exact capMap_refl _
    · rcases List.eq_nil_or_concat (lowPart s.nodes k) with hnil | ⟨A₀, a, hcat⟩
      · have hstate : eraseOp s k = (s, false) := by
          unfold eraseOp
          rw [if_neg h0, findLeftIdx_eq_lastPos s k hs]
          simp only [covering_low_nil s.nodes k hnil]
        rw [hstate]
        exact capMap_refl _
      · rw [List.concat_eq_append] at hcat
        obtain ⟨hsplit, hlen, hcov⟩ := covering_low_concat s.nodes k A₀ a hcat
        by_cases hv : k - a.base < capacity_limit
        · rw [if_pos hv] at hcov
          by_cases hh : a.hasElement (k - a.base) = true
          · have hlt := hasElement_imp_lt a _ hh
            have hdel : a.deleteElement (k - a.base) =
                { a with bitMap := bitsSetZero a.bitMap (k - a.base) } :=
              deleteElement_eq a _ hlt
            have hset : s.nodes.set A₀.length (a.deleteElement (k - a.base)) =
                A₀ ++ a.deleteElement (k - a.base) :: highPart s.nodes k := by
              conv_lhs => rw [hsplit]
              exact set_at_prefix_len _ _ _ _
            by_cases hemp : (a.deleteElement (k - a.base)).isEmpty = true
            · have hstate : eraseOp s k =
                  (removeNodeAt
                    { s with nodes := s.nodes.set A₀.length (a.deleteElement (k - a.base)) }
                    A₀.length, true) := by
                unfold eraseOp
                rw [if_neg h0, findLeftIdx_eq_lastPos s k hs]
                simp only [hcov, hh, if_true, hemp]
              have hmid : (A₀ ++ a.deleteElement (k - a.base) ::
                  highPart s.nodes k).eraseIdx A₀.length = A₀ ++ highPart s.nodes k :=
                eraseIdx_at_prefix_len A₀ _ _
              rw [hstate]
              unfold removeNodeAt
              dsimp only
              rw [hset, hmid]
              by_cases hguard : s.level < 4 ∨
                  2 ^ s.level - 2 ^ 4 < (A₀ ++ highPart s.nodes k).length
              · rw [if_pos hguard]
                exact capMap_drop s A₀ a _ hsplit
              · rw [if_neg hguard]
                exact capMap_f2 (capMap_drop s A₀ a _ hsplit)
                  (decreaseLevelC_data
                    ({ s with nodes := A₀ ++ highPart s.nodes k } : VState α)).1
            · have hstate : eraseOp s k =
                  ({ s with nodes := s.nodes.set A₀.length (a.deleteElement (k - a.base)) },
                    true) := by
                unfold eraseOp
                rw [if_neg h0, findLeftIdx_eq_lastPos s k hs]
                simp only [hcov, hh, if_true, hemp]
                simp
              rw [hstate]
              dsimp only
              rw [hset]
              exact capMap_mid s k A₀ a _ _ hsplit (by rw [hdel]) (by rw [hdel])
          · have hstate : eraseOp s k = (s, false) := by
              unfold eraseOp
              rw [if_neg h0, findLeftIdx_eq_lastPos s k hs]
              simp only [hcov]
              simp [hh]
            rw [hstate]
            exact capMap_refl _
        · rw [if_neg hv] at hcov
          have hstate : eraseOp s k = (s, false) := by
            unfold eraseOp
            rw [if_neg h0, findLeftIdx_eq_lastPos s k hs]
            simp only [hcov]
          rw [hstate]
          exact capMap_refl _

end VSL

namespace VSL

variable {α : Type}

/-- C1: for every history of indexed writes (`list[k] = v`) and `erase(k)`
and every key `k`, `has(k)` is true exactly when a reference map built from
the same history contains `k`, and the read through the const `operator[]`
returns the mapped value when present and the `invalid` value otherwise;
`set(k, invalid)` stores the value `invalid` (the semantics the code
chooses). -/
theorem claim_c1 (inv : α) (seed : Nat) (ops : List (WOp α)) (k : Nat) :
    hasOp (runM inv seed (ops.map wopToM)) k = (refRun ops k).isSome ∧
    getOp inv (runM inv seed (ops.map wopToM)) k = (refRun ops k).getD inv := by
  have hI : Inv (runM inv seed (ops.map wopToM)) :=
    reachable_inv inv _ ⟨seed, ops.map wopToM, rfl⟩
  have hlook := runM_lookup inv seed (ops.map wopToM) k
  rw [refApply_map inv ops] at hlook
  exact ⟨by rw [hasOp_abs inv _ k hI, hlook]; rfl,
    by rw [getOp_abs inv _ k hI, hlook]; rfl⟩

/-- C2, counterexample: splicing key 5 into a fresh container creates a
block whose base is 5, which is not a multiple of the block capacity 64 —
`insertNode` uses the raw key as `baseIndex` (vsl.hpp:310). -/
theorem claim_c2_counterexample :
    ¬ (∀ n ∈ (runM (0 : Nat) 1 [MOp.touch 5]).nodes, n.base % 64 = 0) := by
  decide

/-- C2, amended: the block spliced for an uncovered key `k` has base
exactly `k`; no alignment of the base to the block capacity takes place. -/
theorem claim_c2_amended (inv : α) (s : VState α) (k : Nat) (hr : Reachable inv s)
    (hnc : ∀ n ∈ s.nodes, ¬(n.base ≤ k ∧ k - n.base < capacity_limit)) :
    ∃ n ∈ (touchOp inv s k).1.nodes, n.base = k := by
  obtain ⟨hs, hns, hok⟩ := reachable_inv inv s hr
  have hcov := no_cover_bridge s k hs hnc
  rw [touchOp_nocov_state inv s k hs hcov]
  obtain ⟨hf2, -⟩ := insertNodeOp_f2 s k inv
  obtain ⟨b, hb, hdata⟩ := f2_mem_left hf2 (⟨k, 0, 1, [inv, inv, inv, inv]⟩ : Node α)
    (List.mem_append.mpr (Or.inr (List.mem_cons_self _ _)))
  exact ⟨b, hb, by rw [← hdata.1]⟩

/-- Witness for the amended C2 at a concrete input. -/
theorem claim_c2_witness :
    (∀ n ∈ (initState 1 : VState Nat).nodes, ¬(n.base ≤ 5 ∧ 5 - n.base < capacity_limit)) ∧
    ∃ n ∈ (touchOp 0 (initState 1 : VState Nat) 5).1.nodes, n.base = 5 :=
  ⟨by decide, claim_c2_amended 0 (initState 1) 5 ⟨1, [], rfl⟩ (by decide)⟩

/-- C3: on a state whose block list is sorted by base (the link invariant),
`findLeftNode` returns the position of the block with the greatest base at
most `k` when one exists, and the head-sentinel position 0 otherwise. -/
theorem claim_c3 (s : VState α) (k : Nat) (hs : Sorted s.nodes) :
    (findLeftIdx s k = 0 ∧ ∀ n ∈ s.nodes, k < n.base) ∨
    (∃ n, 0 < findLeftIdx s k ∧ s.nodes.get? (findLeftIdx s k - 1) = some n ∧
      n.base ≤ k ∧ ∀ m ∈ s.nodes, m.base ≤ k → m.base ≤ n.base) := by
  rw [findLeftIdx_eq_lastPos s k hs]
  rcases List.eq_nil_or_concat (lowPart s.nodes k) with hnil | ⟨A₀, a, hcat⟩
  · left
    refine ⟨by rw [lastPos_eq_low_length, hnil]; rfl, ?_⟩
    intro n hn
    have hhigh : s.nodes = highPart s.nodes k := by
      conv_lhs => rw [← low_append_high s.nodes k]
      rw [hnil, List.nil_append]
    rw [hhigh] at hn
    exact highPart_gt s.nodes k hs n hn
  · right
    rw [List.concat_eq_append] at hcat
    obtain ⟨hsplit, hlen, -⟩ := covering_low_concat s.nodes k A₀ a hcat
    refine ⟨a, by omega, ?_, lowPart_le s.nodes k a (by rw [hcat]; simp), ?_⟩
    · rw [hlen]
      simp only [Nat.add_sub_cancel]
      rw [hsplit]
      exact get?_at_prefix_len _ _ _
    · intro m hm hmk
      rw [hsplit] at hm
      rcases List.mem_append.mp hm with h | h
      · have hs' := hsplit ▸ hs
        rw [Sorted, List.pairwise_append] at hs'
        have := hs'.2.2 m h a (List.mem_cons_self _ _)
        omega
      · rcases List.mem_cons.mp h with rfl | h
        · exact Nat.le_refl _
        · have hgt := highPart_gt s.nodes k hs m h
          omega

/-- Witness for C3 at a concrete sorted state. -/
theorem claim_c3_witness :
    Sorted (⟨1, [⟨0, 0, 1, [7]⟩, ⟨100, 0, 1, [8]⟩], 0⟩ : VState Nat).nodes ∧
    ((findLeftIdx (⟨1, [⟨0, 0, 1, [7]⟩, ⟨100, 0, 1, [8]⟩], 0⟩ : VState Nat) 150 = 0 ∧
      ∀ n ∈ (⟨1, [⟨0, 0, 1, [7]⟩, ⟨100, 0, 1, [8]⟩], 0⟩ : VState Nat).nodes, 150 < n.base) ∨
    (∃ n, 0 < findLeftIdx (⟨1, [⟨0, 0, 1, [7]⟩, ⟨100, 0, 1, [8]⟩], 0⟩ : VState Nat) 150 ∧
      (⟨1, [⟨0, 0, 1, [7]⟩, ⟨100, 0, 1, [8]⟩], 0⟩ : VState Nat).nodes.get?
        (findLeftIdx (⟨1, [⟨0, 0, 1, [7]⟩, ⟨100, 0, 1, [8]⟩], 0⟩ : VState Nat) 150 - 1) =
        some n ∧ n.base ≤ 150 ∧
      ∀ m ∈ (⟨1, [⟨0, 0, 1, [7]⟩, ⟨100, 0, 1, [8]⟩], 0⟩ : VState Nat).nodes,
        m.base ≤ 150 → m.base ≤ n.base)) :=
  ⟨by unfold Sorted; decide, claim_c3 (⟨1, [⟨0, 0, 1, [7]⟩, ⟨100, 0, 1, [8]⟩], 0⟩ : VState Nat)
    150 (by unfold Sorted; decide)⟩

/-- C4: on any reachable state where `k` is present, erasing twice returns
true then false, and the second erase does not change the state. -/
theorem claim_c4 (inv : α) (s : VState α) (k : Nat) (hr : Reachable inv s)
    (hk : hasOp s k = true) :
    (eraseOp s k).2 = true ∧
    (eraseOp (eraseOp s k).1 k).2 = false ∧
    (eraseOp (eraseOp s k).1 k).1 = (eraseOp s k).1 := by
  have hI := reachable_inv inv s hr
  obtain ⟨hI1, hl1, hb1⟩ := erase_sim inv s k hI
  have hsome : (absLookup inv s.nodes k).isSome = true := by
    rw [← hasOp_abs inv s k hI]
    exact hk
  obtain ⟨hI2, hl2, hb2⟩ := erase_sim inv (eraseOp s k).1 k hI1
  refine ⟨by rw [hb1]; exact hsome, ?_, ?_⟩
  · rw [hb2, hl1 k, if_pos rfl]
    rfl
  · apply eraseOp_false_eq
    rw [hb2, hl1 k, if_pos rfl]
    rfl

/-- Witness for C4 at a concrete input. -/
theorem claim_c4_witness :
    hasOp (runM (0 : Nat) 1 [MOp.write 3 7]) 3 = true ∧
    ((eraseOp (runM (0 : Nat) 1 [MOp.write 3 7]) 3).2 = true ∧
     (eraseOp (eraseOp (runM (0 : Nat) 1 [MOp.write 3 7]) 3).1 3).2 = false ∧
     (eraseOp (eraseOp (runM (0 : Nat) 1 [MOp.write 3 7]) 3).1 3).1 =
       (eraseOp (runM (0 : Nat) 1 [MOp.write 3 7]) 3).1) :=
  ⟨by decide, claim_c4 0 (runM 0 1 [MOp.write 3 7]) 3 ⟨1, [MOp.write 3 7], rfl⟩ (by decide)⟩

/-- C5, counterexample: after `list[0]; list[100]; erase(0)` with seed 2
the container holds one block (width 1 > 0), yet no block reaches the top
level — the promotion in `increaseLevel` is forced at the first candidate,
not the last, and unlinking the only promoted block leaves the top level
empty, refuting the claimed invariant. -/
theorem claim_c5_counterexample :
    0 < (runM (0 : Nat) 2 [MOp.touch 0, MOp.touch 100, MOp.erase 0]).nodes.length ∧
    ¬ ∃ n ∈ (runM (0 : Nat) 2 [MOp.touch 0, MOp.touch 100, MOp.erase 0]).nodes,
      (runM (0 : Nat) 2 [MOp.touch 0, MOp.touch 100, MOp.erase 0]).level ≤ n.level := by
  decide

/-- C5, amended: promotion is forced whenever no promotion has happened
yet, so the first candidate of the previous top chain is always promoted;
hence when the previous top chain holds at least one block, the new top
level holds at least one block immediately after `increaseLevel`.  (The top
level can still become empty later, as the counterexample shows.) -/
theorem claim_c5_amended (s : VState α) (h : ∃ n ∈ s.nodes, s.level ≤ n.level) :
    ∃ n ∈ (increaseLevelC s).nodes, (increaseLevelC s).level ≤ n.level := by
  unfold increaseLevelC
  dsimp only
  exact promoteWalk_first s.level s.nodes s.rng h

/-- Witness for the amended C5 at a concrete input. -/
theorem claim_c5_witness :
    (∃ n ∈ (⟨1, [⟨0, 0, 1, [7]⟩], 0⟩ : VState Nat).nodes,
      (⟨1, [⟨0, 0, 1, [7]⟩], 0⟩ : VState Nat).level ≤ n.level) ∧
    ∃ n ∈ (increaseLevelC (⟨1, [⟨0, 0, 1, [7]⟩], 0⟩ : VState Nat)).nodes,
      (increaseLevelC (⟨1, [⟨0, 0, 1, [7]⟩], 0⟩ : VState Nat)).level ≤ n.level :=
  ⟨by decide, claim_c5_amended (⟨1, [⟨0, 0, 1, [7]⟩], 0⟩ : VState Nat) (by decide)⟩

/-- C6: a bare `list[k]` on a reachable state with no block covering `k`
splices in a block, stores `invalid` in the slot for `k`, and returns that
value; afterwards `has(k)` is true and the read of `k` yields `invalid`,
although no assignment was performed. -/
theorem claim_c6 (inv : α) (s : VState α) (k : Nat) (hr : Reachable inv s)
    (hnc : ∀ n ∈ s.nodes, ¬(n.base ≤ k ∧ k - n.base < capacity_limit)) :
    (touchOp inv s k).2 = inv ∧
    hasOp (touchOp inv s k).1 k = true ∧
    getOp inv (touchOp inv s k).1 k = inv ∧
    (touchOp inv s k).1.nodes.length = s.nodes.length + 1 := by
  have hI := reachable_inv inv s hr
  obtain ⟨hs, hns, hok⟩ := hI
  have hcov := no_cover_bridge s k hs hnc
  have hnc' := covering_none_cases s k hs hcov
  have hlookk := nocov_lookup_none inv s k hs hnc'
  obtain ⟨hI', hl', hret⟩ := touch_sim inv s k ⟨hs, hns, hok⟩
  refine ⟨by rw [hret, hlookk]; rfl, ?_, ?_, ?_⟩
  · rw [hasOp_abs inv _ k hI', hl' k, if_pos rfl, hlookk]
    rfl
  · rw [getOp_abs inv _ k hI', hl' k, if_pos rfl, hlookk]
    rfl
  · rw [touchOp_nocov_state inv s k hs hcov]
    obtain ⟨hf2, -⟩ := insertNodeOp_f2 s k inv
    have hlen := f2_length hf2
    rw [← hlen, List.length_append, List.length_cons]
    conv_rhs => rw [← low_append_high s.nodes k]
    rw [List.length_append]
    omega

/-- Witness for C6 at a concrete input. -/
theorem claim_c6_witness :
    (∀ n ∈ (initState 1 : VState Nat).nodes, ¬(n.base ≤ 9 ∧ 9 - n.base < capacity_limit)) ∧
    ((touchOp 0 (initState 1 : VState Nat) 9).2 = 0 ∧
     hasOp (touchOp 0 (initState 1 : VState Nat) 9).1 9 = true ∧
     getOp 0 (touchOp 0 (initState 1 : VState Nat) 9).1 9 = 0 ∧
     (touchOp 0 (initState 1 : VState Nat) 9).1.nodes.length =
       (initState 1 : VState Nat).nodes.length + 1) :=
  ⟨by decide, claim_c6 0 (initState 1) 9 ⟨1, [], rfl⟩ (by decide)⟩

/-- C7, counterexample: with seed 12869810955438169823, after `list[0]` and
`list[100]` the container has height 1 and the next PRNG word is 0, so the
spec's formula `min(ctz(r) & 31, height)` yields level 0, while the code's
`getRandomLevel` (no mask) yields level 1; the block then spliced for key
200 indeed carries level 1. -/
theorem claim_c7_counterexample :
    (getRandomLevelC (runM (0 : Nat) 12869810955438169823
      [MOp.touch 0, MOp.touch 100])).2 = 1 ∧
    specRandomLevel
      (xnext (runM (0 : Nat) 12869810955438169823 [MOp.touch 0, MOp.touch 100]).rng).2
      (runM (0 : Nat) 12869810955438169823 [MOp.touch 0, MOp.touch 100]).level = 0 ∧
    ((runM (0 : Nat) 12869810955438169823
        [MOp.touch 0, MOp.touch 100, MOp.touch 200]).nodes.find?
        (fun n => n.base == 200)).map Node.level = some 1 := by
  decide

/-- C7, amended: the level drawn for a fresh block is
`min(ctz(rng.next()), height)` — `vsl.hpp` applies no `& (MAX_LEVELS - 1)`
mask (there is no `MAX_LEVELS` in that file); `insertNode` builds the block
with exactly this level (vsl.hpp:309-310). -/
theorem claim_c7_amended (s : VState α) :
    (getRandomLevelC s).2 = min (ctz64 (xnext s.rng).2) s.level := by
  unfold getRandomLevelC
  dsimp only
  rw [Nat.min_def]

/-- C8, counterexample: `list[0]` then `list[31]` grows the block's buffer
to capacity 32, which the claimed set {0, 4, 8, 16, 64} omits. -/
theorem claim_c8_counterexample :
    ¬ (∀ n ∈ (runM (0 : Nat) 1 [MOp.touch 0, MOp.touch 31]).nodes,
      n.elements.length ∈ ([0, 4, 8, 16, 64] : List Nat)) := by
  decide

/-- C8, amended: on reachable states every block's element capacity lies in
{0, 4, 8, 16, 32, 64}, and no operation shrinks the capacity of a
surviving block (blocks are identified by their immutable base). -/
theorem claim_c8_amended (inv : α) (s : VState α) (op : MOp α) (hr : Reachable inv s) :
    (∀ n ∈ s.nodes, n.elements.length ∈ capSet) ∧
    (∀ n ∈ s.nodes, ∀ n' ∈ (applyM inv s op).nodes, n.base = n'.base →
      n.elements.length ≤ n'.elements.length) := by
  have hI := reachable_inv inv s hr
  exact ⟨fun n hn => (hI.2.2 n hn).2.1, capMap_mono hI.1 (capMap_apply inv s op hI)⟩

/-- Witness for the amended C8 at a concrete input. -/
theorem claim_c8_witness :
    ((∀ n ∈ (runM (0 : Nat) 1 [MOp.touch 0]).nodes, n.elements.length ∈ capSet) ∧
     (∀ n ∈ (runM (0 : Nat) 1 [MOp.touch 0]).nodes,
       ∀ n' ∈ (applyM 0 (runM (0 : Nat) 1 [MOp.touch 0]) (MOp.touch 31)).nodes,
       n.base = n'.base → n.elements.length ≤ n'.elements.length)) :=
  claim_c8_amended 0 (runM 0 1 [MOp.touch 0]) (MOp.touch 31) ⟨1, [MOp.touch 0], rfl⟩

/-- C9: two containers constructed with the same invalid value and seed
produce identical observations — `operator[]` values, `erase` and `has`
results — and identical `getLevel` values after every call, for any common
call sequence: behaviour is a deterministic function of seed and calls. -/
theorem claim_c9 (inv : α) (seed : Nat) (ops : List (QOp α)) (c1 c2 : VState α)
    (h1 : c1 = initState seed) (h2 : c2 = initState seed) :
    qrun inv c1 ops = qrun inv c2 ops := by
  subst h1
  subst h2
  rfl

/-- Witness for C9 at a concrete input. -/
theorem claim_c9_witness :
    ((initState 3 : VState Nat) = initState 3) ∧
    qrun 0 (initState 3 : VState Nat) [QOp.touch 1, QOp.hasQ 1, QOp.erase 1] =
      qrun 0 (initState 3 : VState Nat) [QOp.touch 1, QOp.hasQ 1, QOp.erase 1] :=
  ⟨rfl, claim_c9 0 3 [QOp.touch 1, QOp.hasQ 1, QOp.erase 1] _ _ rfl rfl⟩

/-- C10: whenever `erase(k)` returns false — empty container, no covering
block, offset out of range, or bit already clear — the container state is
completely unchanged. -/
theorem claim_c10 (s : VState α) (k : Nat) (h : (eraseOp s k).2 = false) :
    (eraseOp s k).1 = s :=
  eraseOp_false_eq s k h

/-- Witness for C10 at a concrete input. -/
theorem claim_c10_witness :
    (eraseOp (initState 1 : VState Nat) 5).2 = false ∧
    (eraseOp (initState 1 : VState Nat) 5).1 = initState 1 :=
  ⟨by decide, claim_c10 (initState 1) 5 (by decide)⟩

end VSL
